import Mathlib

/-! Verification of doherty-threshold: sorting algorithms and test-data generators.

A shallow embedding of `pkg/algorithms` (bubble sort, merge sort) and
`pkg/testdata` (array generators), with the properties stated by the
specification proved about it.

Conventions of the embedding:

* a Go `[]int` is a `List Int` (its length and its elements); the elements are
  only compared and moved, never added, so the width of `int` plays no role in
  the sorts;
* an index expression `s[i]` is `s[i]?`: an index outside the slice is the
  run-time failure of Go and makes the whole function return `none`;
* a counting `for` loop is a recursive function on the number of iterations
  that are left, carrying the loop variable; the `for cond` loop of `merge` and the
  recursion of `MergeSort` carry a bound on their iterations and depth, and the
  top-level functions pass a bound that is proved sufficient;
* for the frame property the sorts are modelled a second time over an explicit
  memory (slice headers, `make`, `copy`, `append`), and related to the list
  functions;
* the number of comparisons of bubble sort is counted by a copy of its loops with a
  counter, and stability of merge sort is stated on a copy of its code for elements
  that carry a tag; both copies are related to the functions they copy;
* the benchmark harness is state passing over the recorded metrics and over the state
  of the sort function it calls, with the random source and the clock as parameters;
  text is a list of characters;
* the allocation `make([]int, n)` of the generators fails for a negative length, for
  a length beyond the bound of its run-time check and for a length the free memory
  cannot hold; the free memory is a parameter.
-/

namespace DohertyThreshold

/-! ## pkg/algorithms/bubble.go -/

/-- Body of the inner loop of `BubbleSort` at index `j`:
`if result[j] > result[j+1] { result[j], result[j+1] = result[j+1], result[j] }`. -/
def swapStep (result : List Int) (j : Nat) : Option (List Int) :=
  match result[j]?, result[j + 1]? with
  | some a, some b =>
    if a > b then some ((result.set j b).set (j + 1) a) else some result
  | _, _ => none

/-- Inner loop `for j := j; j < bound; j++ { ... }` of `BubbleSort`, where `k = bound - j`
iterations are left. -/
def innerLoop : Nat → Nat → List Int → Option (List Int)
  | _, 0, result => some result
  | j, k + 1, result => (swapStep result j).bind (innerLoop (j + 1) k)

/-- Outer loop `for i := i; i < n; i++ { for j := 0; j < n-i-1; j++ { ... } }` of
`BubbleSort`, where `k = n - i` passes are left. -/
def outerLoop (n : Nat) : Nat → Nat → List Int → Option (List Int)
  | _, 0, result => some result
  | i, k + 1, result => (innerLoop 0 (n - i - 1) result).bind (outerLoop n (i + 1) k)

/-- Function `BubbleSort(arr)`: copy `arr` into a fresh `result`, run `n = len(result)` passes,
return `result`. -/
def BubbleSort (arr : List Int) : Option (List Int) :=
  let result := arr
  let n := result.length
  outerLoop n 0 n result

/-! ## pkg/algorithms/merge.go -/

/-- Slice expression `s[i:]`; it fails when `i` is beyond the end of `s`. -/
def sliceFrom (s : List Int) (i : Nat) : Option (List Int) :=
  if i ≤ s.length then some (s.drop i) else none

/-- Slice expression `s[:i]`; it fails when `i` is beyond the end of `s` (Go allows `i` up
to the capacity, which a list does not record; the length is the stricter bound). -/
def sliceTo (s : List Int) (i : Nat) : Option (List Int) :=
  if i ≤ s.length then some (s.take i) else none

/-- The loop of `merge`,
`for i < len(left) && j < len(right) { if left[i] <= right[j] {...; i++} else {...; j++} }`,
as a function of the loop variables `i`, `j`, `result`, returning their values at the exit.
The first argument bounds the number of iterations: the loop gives `none` when the bound is
used up while its condition still holds. -/
def mergeLoop (left right : List Int) :
    Nat → Nat → Nat → List Int → Option (Nat × Nat × List Int)
  | 0, i, j, result =>
    if i < left.length ∧ j < right.length then none else some (i, j, result)
  | fuel + 1, i, j, result =>
    if i < left.length ∧ j < right.length then
      match left[i]?, right[j]? with
      | some a, some b =>
        if a ≤ b then mergeLoop left right fuel (i + 1) j (result ++ [a])
        else mergeLoop left right fuel i (j + 1) (result ++ [b])
      | _, _ => none
    else some (i, j, result)

/-- Function `merge(left, right)`: the loop from `i, j := 0, 0` and an empty `result`, then
`result = append(result, left[i:]...)` and `result = append(result, right[j:]...)`.
Each iteration advances `i` or `j`, so `len(left) + len(right)` bounds their number. -/
def merge (left right : List Int) : Option (List Int) :=
  (mergeLoop left right (left.length + right.length) 0 0 []).bind fun (i, j, result) =>
    (sliceFrom left i).bind fun restLeft =>
      (sliceFrom right j).bind fun restRight =>
        some ((result ++ restLeft) ++ restRight)

/-- Function `MergeSort` with a bound on the depth of the recursion (`none` when it is used up). -/
def MergeSortFuel : Nat → List Int → Option (List Int)
  | 0, arr => if arr.length ≤ 1 then some arr else none
  | fuel + 1, arr =>
    if arr.length ≤ 1 then some arr
    else
      let mid := arr.length / 2
      (sliceTo arr mid).bind fun l =>
        (MergeSortFuel fuel l).bind fun left =>
          (sliceFrom arr mid).bind fun r =>
            (MergeSortFuel fuel r).bind fun right =>
              merge left right

/-- Function `MergeSort(arr)`. Both recursive calls are on strictly shorter slices, so the depth of
the recursion is at most `len(arr)`. -/
def MergeSort (arr : List Int) : Option (List Int) :=
  MergeSortFuel arr.length arr

/-! ## pkg/testdata/generator.go -/

/-- The largest length the run-time check of `make([]int, n)` accepts: the size in bytes,
`8 * n` for the 8-byte `int` of a 64-bit platform, may not exceed the allocator's bound
`maxAlloc`, which is `2 ^ 48` bytes on linux/amd64. -/
def maxSliceLen : Nat := 2 ^ 45

/-- Allocation `make([]int, n)`, in a run whose free memory holds `avail` elements: a
slice of `n` zeros. It fails for a negative length and for a length above `maxSliceLen`
(both are the panic `makeslice: len out of range`), and for a length the free memory
cannot hold (out of memory). -/
def makeSlice (avail : Nat) (n : Int) : Option (List Int) :=
  if 0 ≤ n ∧ n.toNat ≤ maxSliceLen ∧ n.toNat ≤ avail then some (List.replicate n.toNat 0)
  else none

/-- Loop `for i := range arr { arr[i] = f(i) }`, from index `i` with `k` iterations left. -/
def fillLoop (f : Nat → Int) : Nat → Nat → List Int → Option (List Int)
  | _, 0, arr => some arr
  | i, k + 1, arr =>
    if i < arr.length then fillLoop f (i + 1) k (arr.set i (f i)) else none

/-- Function `GenerateSortedArray(n)`: `arr := make([]int, n)`, then `arr[i] = i` for every
index. -/
def GenerateSortedArray (avail : Nat) (n : Int) : Option (List Int) :=
  (makeSlice avail n).bind fun arr => fillLoop (fun i => (i : Int)) 0 arr.length arr

/-- Function `GenerateReversedArray(n)`: `arr := make([]int, n)`, then `arr[i] = n - i` for every
index. Since `0 ≤ i < n`, the difference `n - i` lies in `1..n` and does not overflow. -/
def GenerateReversedArray (avail : Nat) (n : Int) : Option (List Int) :=
  (makeSlice avail n).bind fun arr => fillLoop (fun i => n - (i : Int)) 0 arr.length arr

/-! ## The two sorts over an explicit memory

For the frame property the slices are no longer values: a slice is a header pointing into
a memory that holds the backing arrays, and the sorts are state-passing functions on
that memory. -/

/-- A Go slice header: the address of element `0`, the length and the capacity. -/
structure Slice where
  base : Nat
  len : Nat
  cap : Nat

/-- The memory: the cells of all backing arrays allocated so far, by address. A new
backing array is allocated at the end. -/
abbrev Mem := List Int

/-- The sequence held by the slice `s` in the memory `m`. -/
def contents (m : Mem) (s : Slice) : List Int :=
  (m.drop s.base).take s.len

/-- Read `s[i]`: the index is checked against the length. -/
def loadAt (m : Mem) (s : Slice) (i : Nat) : Option Int :=
  if i < s.len then m[s.base + i]? else none

/-- Write `s[i] = v`: the index is checked against the length. -/
def storeAt (m : Mem) (s : Slice) (i : Nat) (v : Int) : Option Mem :=
  if i < s.len ∧ s.base + i < m.length then some (m.set (s.base + i) v) else none

/-- Allocation `make([]int, len, cap)`: a fresh zeroed backing array of `cap` cells. -/
def alloc (m : Mem) (len cap : Nat) : Option (Slice × Mem) :=
  if len ≤ cap then some (⟨m.length, len, cap⟩, m ++ List.replicate cap 0) else none

/-- Slice expression `s[i:]`. -/
def sliceFromM (s : Slice) (i : Nat) : Option Slice :=
  if i ≤ s.len then some ⟨s.base + i, s.len - i, s.cap - i⟩ else none

/-- Slice expression `s[:i]` (Go allows `i` up to the capacity). -/
def sliceToM (s : Slice) (i : Nat) : Option Slice :=
  if i ≤ s.cap then some ⟨s.base, i, s.cap⟩ else none

/-- One-element `append(s, v)`: within the capacity the element is written behind the
last one in the same backing array; otherwise the elements move to a fresh, larger backing
array (Go leaves the new capacity to the implementation; here it is `2 * cap + 1`). -/
def appendOne (m : Mem) (s : Slice) (v : Int) : Option (Slice × Mem) :=
  if s.len < s.cap then
    if s.base + s.len < m.length then
      some (⟨s.base, s.len + 1, s.cap⟩, m.set (s.base + s.len) v)
    else none
  else
    some (⟨m.length, s.len + 1, 2 * s.cap + 1⟩,
      m ++ (contents m s ++ v :: List.replicate (2 * s.cap - s.len) 0))

/-- Call `append(result, src...)` as one-element appends of `src[k]`, `src[k+1]`, ..., with `n`
elements left. -/
def appendLoopM (src : Slice) : Nat → Nat → Slice → Mem → Option (Slice × Mem)
  | _, 0, result, m => some (result, m)
  | k, n + 1, result, m =>
    (loadAt m src k).bind fun v =>
      (appendOne m result v).bind fun (result2, m2) => appendLoopM src (k + 1) n result2 m2

/-- Call `append(result, src...)`. -/
def appendAllM (m : Mem) (result src : Slice) : Option (Slice × Mem) :=
  appendLoopM src 0 src.len result m

/-- Call `copy(dst, src)` from index `i` with `k` elements left (the two do not overlap where it
is used). -/
def copyLoopM (dst src : Slice) : Nat → Nat → Mem → Option Mem
  | _, 0, m => some m
  | i, k + 1, m =>
    (loadAt m src i).bind fun v =>
      (storeAt m dst i v).bind fun m2 => copyLoopM dst src (i + 1) k m2

/-- Call `copy(dst, src)`: `min(len(dst), len(src))` elements are copied. -/
def copyM (m : Mem) (dst src : Slice) : Option Mem :=
  copyLoopM dst src 0 (min dst.len src.len) m

/-- Body of the inner loop of `BubbleSort`, on the memory. -/
def swapStepM (m : Mem) (result : Slice) (j : Nat) : Option Mem :=
  match loadAt m result j, loadAt m result (j + 1) with
  | some a, some b =>
    if a > b then (storeAt m result j b).bind fun m2 => storeAt m2 result (j + 1) a
    else some m
  | _, _ => none

/-- Inner loop of `BubbleSort`, on the memory. -/
def innerLoopM (result : Slice) : Nat → Nat → Mem → Option Mem
  | _, 0, m => some m
  | j, k + 1, m => (swapStepM m result j).bind (innerLoopM result (j + 1) k)

/-- Outer loop of `BubbleSort`, on the memory. -/
def outerLoopM (result : Slice) (n : Nat) : Nat → Nat → Mem → Option Mem
  | _, 0, m => some m
  | i, k + 1, m => (innerLoopM result 0 (n - i - 1) m).bind (outerLoopM result n (i + 1) k)

/-- Function `BubbleSort(arr)` on the memory: `result := make([]int, len(arr))`,
`copy(result, arr)`, the passes over `result`, `return result`. It returns the header of
the result and the memory after the call. -/
def BubbleSortM (m : Mem) (arr : Slice) : Option (Slice × Mem) :=
  (alloc m arr.len arr.len).bind fun (result, m1) =>
    (copyM m1 result arr).bind fun m2 =>
      (outerLoopM result result.len 0 result.len m2).bind fun m3 => some (result, m3)

/-- The loop of `merge`, on the memory. -/
def mergeLoopM (left right : Slice) :
    Nat → Nat → Nat → Slice → Mem → Option (Nat × Nat × Slice × Mem)
  | 0, i, j, result, m =>
    if i < left.len ∧ j < right.len then none else some (i, j, result, m)
  | fuel + 1, i, j, result, m =>
    if i < left.len ∧ j < right.len then
      match loadAt m left i, loadAt m right j with
      | some a, some b =>
        if a ≤ b then
          (appendOne m result a).bind fun (result2, m2) =>
            mergeLoopM left right fuel (i + 1) j result2 m2
        else
          (appendOne m result b).bind fun (result2, m2) =>
            mergeLoopM left right fuel i (j + 1) result2 m2
      | _, _ => none
    else some (i, j, result, m)

/-- Function `merge(left, right)` on the memory: `result := make([]int, 0, len(left)+len(right))`,
the loop, the two final appends. -/
def mergeM (m : Mem) (left right : Slice) : Option (Slice × Mem) :=
  (alloc m 0 (left.len + right.len)).bind fun (result, m1) =>
    (mergeLoopM left right (left.len + right.len) 0 0 result m1).bind
      fun (i, j, result2, m2) =>
        (sliceFromM left i).bind fun restLeft =>
          (appendAllM m2 result2 restLeft).bind fun (result3, m3) =>
            (sliceFromM right j).bind fun restRight =>
              appendAllM m3 result3 restRight

/-- Function `MergeSort` on the memory, with a bound on the depth of the recursion. A slice of
length 0 or 1 is returned as it is, sharing the storage of the argument. -/
def MergeSortFuelM : Nat → Mem → Slice → Option (Slice × Mem)
  | 0, m, arr => if arr.len ≤ 1 then some (arr, m) else none
  | fuel + 1, m, arr =>
    if arr.len ≤ 1 then some (arr, m)
    else
      let mid := arr.len / 2
      (sliceToM arr mid).bind fun l =>
        (MergeSortFuelM fuel m l).bind fun (left, m1) =>
          (sliceFromM arr mid).bind fun r =>
            (MergeSortFuelM fuel m1 r).bind fun (right, m2) =>
              mergeM m2 left right

/-- Function `MergeSort(arr)` on the memory. -/
def MergeSortM (m : Mem) (arr : Slice) : Option (Slice × Mem) :=
  MergeSortFuelM arr.len m arr

/-! ## Bubble sort with a count of its comparisons -/

/-- Inner loop of `BubbleSort` as `innerLoop`, returning in addition the number of times
the comparison `result[j] > result[j+1]` was evaluated: once in every iteration. -/
def innerLoopCount : Nat → Nat → List Int → Option (List Int × Nat)
  | _, 0, result => some (result, 0)
  | j, k + 1, result =>
    (swapStep result j).bind fun r =>
      (innerLoopCount (j + 1) k r).bind fun (r2, c) => some (r2, c + 1)

/-- Outer loop of `BubbleSort` as `outerLoop`, returning in addition the list of the
numbers of comparisons of its passes, one entry for each pass, in the order of the
passes. -/
def outerLoopCount (n : Nat) : Nat → Nat → List Int → Option (List Int × List Nat)
  | _, 0, result => some (result, [])
  | i, k + 1, result =>
    (innerLoopCount 0 (n - i - 1) result).bind fun (r, c) =>
      (outerLoopCount n (i + 1) k r).bind fun (r2, cs) => some (r2, c :: cs)

/-- Function `BubbleSort` with the comparisons of each pass counted. -/
def BubbleSortCount (arr : List Int) : Option (List Int × List Nat) :=
  let result := arr
  let n := result.length
  outerLoopCount n 0 n result

/-! ## Merge sort on elements that carry a tag

The sorts of the repository work on `[]int`, where two equal elements cannot be told
apart. To state stability, `merge` and `MergeSort` are written once more for elements that
carry a tag next to their value; the code is the same, and the comparison
`left[i] <= right[j]` looks at the values only. -/

/-- An integer value with a tag (its position in the input). -/
abbrev Tagged := Int × Nat

/-- The input `S` with every element tagged by its position. -/
def tagPositions (S : List Int) : List Tagged :=
  S.zip (List.range S.length)

/-- The loop of `merge` on tagged elements, comparing the values. -/
def mergeLoopT (left right : List Tagged) :
    Nat → Nat → Nat → List Tagged → Option (Nat × Nat × List Tagged)
  | 0, i, j, result =>
    if i < left.length ∧ j < right.length then none else some (i, j, result)
  | fuel + 1, i, j, result =>
    if i < left.length ∧ j < right.length then
      match left[i]?, right[j]? with
      | some a, some b =>
        if a.1 ≤ b.1 then mergeLoopT left right fuel (i + 1) j (result ++ [a])
        else mergeLoopT left right fuel i (j + 1) (result ++ [b])
      | _, _ => none
    else some (i, j, result)

/-- Function `merge` on tagged elements. -/
def mergeT (left right : List Tagged) : Option (List Tagged) :=
  (mergeLoopT left right (left.length + right.length) 0 0 []).bind fun (i, j, result) =>
    (if i ≤ left.length then some (left.drop i) else none).bind fun restLeft =>
      (if j ≤ right.length then some (right.drop j) else none).bind fun restRight =>
        some ((result ++ restLeft) ++ restRight)

/-- Function `MergeSort` on tagged elements, with a bound on the depth of the recursion. -/
def MergeSortFuelT : Nat → List Tagged → Option (List Tagged)
  | 0, arr => if arr.length ≤ 1 then some arr else none
  | fuel + 1, arr =>
    if arr.length ≤ 1 then some arr
    else
      let mid := arr.length / 2
      (if mid ≤ arr.length then some (arr.take mid) else none).bind fun l =>
        (MergeSortFuelT fuel l).bind fun left =>
          (if mid ≤ arr.length then some (arr.drop mid) else none).bind fun r =>
            (MergeSortFuelT fuel r).bind fun right =>
              mergeT left right

/-- Function `MergeSort` on tagged elements. -/
def MergeSortT (arr : List Tagged) : Option (List Tagged) :=
  MergeSortFuelT arr.length arr

/-- The comparison of `merge` on tagged elements. -/
def leT (a b : Tagged) : Bool := decide (a.1 ≤ b.1)

/-- The elements of value `v`. -/
def withValue (v : Int) (l : List Tagged) : List Tagged :=
  l.filter (fun x => decide (x.1 = v))

/-! ## The random generator, the metrics and the benchmark harness

Text is a list of characters. The run of the harness is state passing over a `World`:
the number of calls of `rand.Intn` and of clock readings so far, and the metrics that
have been recorded; and over the state of the sort function it is given, which changes
only when the sort function is called. Log lines and the one-second pause between two
sizes are not modelled. -/

/-- Text: the characters of a Go `string`. -/
abbrev Text := List Char

/-- The random source: `src k` determines the value of the `k`-th call of `rand.Intn` in
the run. -/
abbrev RandSource := Nat → Nat

/-- The value of the `k`-th call of `rand.Intn`, called with bound `n`: a value in
`[0, n)`. -/
def Intn (src : RandSource) (k n : Nat) : Int :=
  ((src k % n : Nat) : Int)

/-- Function `GenerateRandomArray(n)`, when `k` calls of `rand.Intn` have been made
before: `arr := make([]int, n)`, then `arr[i] = rand.Intn(10000)` for every index. It
returns the array and the number of calls of `rand.Intn` after it. -/
def GenerateRandomArray (avail : Nat) (src : RandSource) (k : Nat) (n : Int) :
    Option (List Int × Nat) :=
  (makeSlice avail n).bind fun arr =>
    (fillLoop (fun i => Intn src (k + i) 10000) 0 arr.length arr).bind fun out =>
      some (out, k + arr.length)

/-- One observation of the histogram `SortDuration`: its labels `algorithm` and `size`
and the observed duration, the difference of two clock readings. -/
structure Sample where
  algorithm : Text
  size : Text
  duration : Int

/-- The state a benchmark run changes: the number of calls of `rand.Intn` and of clock
readings so far, and the observations of `SortDuration` and the increments of
`SortCompleted` (by their labels), oldest first. -/
structure World where
  draws : Nat
  clockReads : Nat
  sortDuration : List Sample
  sortCompleted : List (Text × Text)

/-- A function value `func([]int) []int` as the harness receives it: a call may fail, and
it may have effects of its own, on a state `σ` that the harness never touches. -/
abbrev SortFunc (σ : Type) := List Int → σ → Option (List Int × σ)

/-- Function `MeasureSort(algorithmName, arr, sortFunc)`: the size label is
`fmt.Sprintf("%d", len(arr))`, the clock is read before and after the call of `sortFunc`,
one observation is recorded and the counter is incremented once. A failure of `sortFunc`
ends the run. -/
def MeasureSort {σ : Type} (clock : Nat → Int) (algorithmName : Text) (arr : List Int)
    (sortFunc : SortFunc σ) (w : World) (st : σ) : Option (List Int × World × σ) :=
  let size := Nat.toDigits 10 arr.length
  let start := clock w.clockReads
  (sortFunc arr st).bind fun (result, st2) =>
    let duration := clock (w.clockReads + 1) - start
    some (result,
      ⟨w.draws, w.clockReads + 2, w.sortDuration ++ [⟨algorithmName, size, duration⟩],
        w.sortCompleted ++ [(algorithmName, size)]⟩, st2)

/-- Server configuration `Config`. -/
structure Config where
  Port : Text
  Sizes : List Int
  AlgorithmName : Text

/-- The loop `for _, size := range cfg.Sizes { ... }` of `runBenchmarks` over the sizes
that are left. -/
def runBenchmarksLoop {σ : Type} (avail : Nat) (src : RandSource) (clock : Nat → Int)
    (cfg : Config) (sortFunc : SortFunc σ) : List Int → World → σ → Option (World × σ)
  | [], w, st => some (w, st)
  | size :: rest, w, st =>
    (GenerateRandomArray avail src w.draws size).bind fun (arr, draws) =>
      (MeasureSort clock cfg.AlgorithmName arr sortFunc
          ⟨draws, w.clockReads, w.sortDuration, w.sortCompleted⟩ st).bind
        fun (_, w2, st2) => runBenchmarksLoop avail src clock cfg sortFunc rest w2 st2

/-- Function `runBenchmarks(cfg, sortFunc)`. -/
def runBenchmarks {σ : Type} (avail : Nat) (src : RandSource) (clock : Nat → Int)
    (cfg : Config) (sortFunc : SortFunc σ) (w : World) (st : σ) : Option (World × σ) :=
  runBenchmarksLoop avail src clock cfg sortFunc cfg.Sizes w st

/-- A sort function without effects of its own, such as `BubbleSort` and `MergeSort`,
made to keep a log of its calls: every call appends its argument to the log. -/
def logged (f : List Int → Option (List Int)) : SortFunc (List (List Int)) :=
  fun arr log => (f arr).bind fun out => some (out, log ++ [arr])

/-- What calling the sort function once on each of the arrays, in their order, does to the
state of the sort function. -/
def callsInOrder {σ : Type} (sortFunc : SortFunc σ) : List (List Int) → σ → Option σ
  | [], st => some st
  | arr :: rest, st => (sortFunc arr st).bind fun (_, st2) => callsInOrder sortFunc rest st2

/-! ## pkg/server/server.go: the configuration

The functions of the Go standard library that `parseSizes` calls are modelled after their
documentation. -/

/-- Call `strings.Split(s, sep)` for a separator of one character: the parts of `s`
between the separators; a text without separator is its only part. -/
def splitOn (sep : Char) : Text → List Text
  | [] => [[]]
  | c :: cs =>
    if c = sep then [] :: splitOn sep cs
    else
      match splitOn sep cs with
      | [] => [[c]]
      | part :: parts => (c :: part) :: parts

/-- White space in the sense of `unicode.IsSpace`. -/
def isSpace (c : Char) : Bool :=
  decide (c.toNat ∈ [9, 10, 11, 12, 13, 32, 0x85, 0xA0, 0x1680, 0x2028, 0x2029, 0x202f,
    0x205f, 0x3000]) || (decide (0x2000 ≤ c.toNat) && decide (c.toNat ≤ 0x200a))

/-- Call `strings.TrimSpace(s)`: `s` without its leading and trailing white space. -/
def TrimSpace (s : Text) : Text :=
  ((s.dropWhile isSpace).reverse.dropWhile isSpace).reverse

/-- The value of a text of decimal digits, continuing from `acc`; `none` when a
character is not a digit. -/
def parseDigits : Text → Nat → Option Nat
  | [], acc => some acc
  | c :: cs, acc =>
    if 48 ≤ c.toNat ∧ c.toNat ≤ 57 then parseDigits cs (acc * 10 + (c.toNat - 48)) else none

/-- The sign in front of a number and the text behind it: `-` for a negative number, an
optional `+` otherwise. -/
def signOf (s : Text) : Bool × Text :=
  match s with
  | '-' :: t => (true, t)
  | '+' :: t => (false, t)
  | t => (false, t)

/-- Call `strconv.Atoi(s)`: an optional sign `+` or `-`, then one or more decimal digits;
`none` stands for the error returned on any other text and on a value outside the 64-bit
range of `int`. -/
def Atoi (s : Text) : Option Int :=
  if (signOf s).2 = [] then none
  else
    (parseDigits (signOf s).2 0).bind fun v =>
      let n : Int := if (signOf s).1 then -(v : Int) else (v : Int)
      if -(2 : Int) ^ 63 ≤ n ∧ n < (2 : Int) ^ 63 then some n else none

/-- The loop `for _, part := range parts { ... }` of `parseSizes`: a part that is not a
number is skipped (with a log line), the value of every other part is appended. -/
def parseSizesLoop : List Text → List Int → List Int
  | [], sizes => sizes
  | part :: rest, sizes =>
    match Atoi (TrimSpace part) with
    | none => parseSizesLoop rest sizes
    | some size => parseSizesLoop rest (sizes ++ [size])

/-- Function `parseSizes(sizesEnv)`. -/
def parseSizes (sizesEnv : Text) : List Int :=
  parseSizesLoop (splitOn ',' sizesEnv) []

/-- Function `DefaultConfig()`. -/
def DefaultConfig : Config :=
  ⟨":8080".toList, [100, 1000, 10000, 50000, 100000], []⟩

/-- Function `LoadConfigFromEnv()`; `getenv` is `os.Getenv`. -/
def LoadConfigFromEnv (getenv : String → Text) : Config :=
  let cfg := DefaultConfig
  let cfg : Config :=
    if getenv "PORT" ≠ [] then ⟨':' :: getenv "PORT", cfg.Sizes, cfg.AlgorithmName⟩
    else cfg
  if getenv "ARRAY_SIZES" ≠ [] then
    if (parseSizes (getenv "ARRAY_SIZES")).length > 0 then
      ⟨cfg.Port, parseSizes (getenv "ARRAY_SIZES"), cfg.AlgorithmName⟩
    else cfg
  else cfg

/-! ## Definitions used in the statements and proofs -/

/-- Positions `m, m+1, ...` of `r` are final: every element at a position `q ≥ m` is at
least every element before it. -/
def SuffixOrdered (m : Nat) (r : List Int) : Prop :=
  ∀ p q a b, p < q → m ≤ q → r[p]? = some a → r[q]? = some b → a ≤ b

/-- Position `j` of `r` holds a maximum of positions `0..j`. -/
def MaxAt (j : Nat) (r : List Int) : Prop :=
  ∀ p a b, p ≤ j → r[p]? = some a → r[j]? = some b → a ≤ b

/-- The comparison `left[i] <= right[j]` of `merge`. -/
def leInt (a b : Int) : Bool := decide (a ≤ b)

/-- A backing array of capacity `cap` whose first cells hold `acc`; the others are still
zero. -/
def region (cap : Nat) (acc : List Int) : List Int :=
  acc ++ List.replicate (cap - acc.length) 0

/-! ## Evaluation on the inputs of the tests and of the documentation -/

theorem eval_BubbleSort_duplicates : BubbleSort [3, 1, 2, 1] = some [1, 1, 2, 3] := by decide

theorem eval_BubbleSort_nil : BubbleSort [] = some [] := by decide

theorem eval_BubbleSort_5281 : BubbleSort [5, 2, 8, 1] = some [1, 2, 5, 8] := by decide

theorem eval_MergeSort_duplicates : MergeSort [3, 1, 2, 1] = some [1, 1, 2, 3] := by decide

theorem eval_MergeSort_nil : MergeSort [] = some [] := by decide

theorem eval_MergeSort_5281 : MergeSort [5, 2, 8, 1] = some [1, 2, 5, 8] := by decide

theorem eval_merge_25_18 : merge [2, 5] [1, 8] = some [1, 2, 5, 8] := by decide

theorem eval_GenerateSortedArray_four : GenerateSortedArray 10 4 = some [0, 1, 2, 3] := by
  decide

theorem eval_GenerateReversedArray_four :
    GenerateReversedArray 10 4 = some [4, 3, 2, 1] := by
  decide

theorem eval_GenerateReversedArray_zero : GenerateReversedArray 10 0 = some [] := by decide

theorem eval_GenerateReversedArray_negative : GenerateReversedArray 10 (-1) = none := by
  decide

theorem eval_BubbleSortM_example :
    (BubbleSortM [7, 3, 1, 2, 9] ⟨1, 3, 3⟩).map (fun r => (contents r.2 r.1, r.2)) =
      some ([1, 2, 3], [7, 3, 1, 2, 9, 1, 2, 3]) := by
  decide

theorem eval_MergeSortM_example :
    (MergeSortM [7, 3, 1, 2, 9] ⟨1, 3, 3⟩).map (fun r => (contents r.2 r.1, r.2)) =
      some ([1, 2, 3], [7, 3, 1, 2, 9, 1, 2, 1, 2, 3]) := by
  decide

/-! ## Bubble sort: lemmas -/

theorem getElem?_swap (r : List Int) (j : Nat) (a b : Int) (p : Nat)
    (ha : r[j]? = some a) (hb : r[j + 1]? = some b) :
    ((r.set j b).set (j + 1) a)[p]? =
      if p = j + 1 then some a else if p = j then some b else r[p]? := by
  have hj : j + 1 < r.length := by
    rcases List.getElem?_eq_some_iff.mp hb with ⟨h, _⟩
    exact h
  by_cases h1 : p = j + 1
  · subst h1
    simp [List.getElem?_set, hj]
  · by_cases h2 : p = j
    · subst h2
      have : p < r.length := by omega
      simp [List.getElem?_set, this]
    · have h3 : ¬ j + 1 = p := fun h => h1 h.symm
      have h4 : ¬ j = p := fun h => h2 h.symm
      simp [List.getElem?_set, h1, h2, h3, h4]

theorem perm_swap (r : List Int) (j : Nat) (a b : Int)
    (ha : r[j]? = some a) (hb : r[j + 1]? = some b) :
    List.Perm ((r.set j b).set (j + 1) a) r := by
  induction r generalizing j with
  | nil => simp at ha
  | cons x t ih =>
    cases j with
    | zero =>
      cases t with
      | nil => simp at hb
      | cons y t2 =>
        simp at ha hb
        subst ha hb
        simpa using List.Perm.swap x y t2
    | succ j2 =>
      simp at ha hb
      simpa using ih j2 ha hb

theorem getElem?_lt_length {r : List Int} {p : Nat} {a : Int} (h : r[p]? = some a) :
    p < r.length := by
  rcases List.getElem?_eq_some_iff.mp h with ⟨h1, _⟩
  exact h1

/-- One step of the inner loop at an index `j` with `j + 1` inside the slice: it succeeds,
keeps the length and the elements, keeps the final positions beyond `j + 1` and moves the
maximum of positions `0..j` to position `j + 1`. -/
theorem swapStep_spec (r : List Int) (j : Nat) (hj : j + 1 < r.length) :
    ∃ r2, swapStep r j = some r2 ∧ r2.length = r.length ∧ List.Perm r2 r ∧
      (∀ M, j + 1 < M → SuffixOrdered M r → SuffixOrdered M r2) ∧
      (MaxAt j r → MaxAt (j + 1) r2) := by
  have ha : r[j]? = some (r[j]) := List.getElem?_eq_getElem (by omega)
  have hb : r[j + 1]? = some (r[j + 1]) := List.getElem?_eq_getElem hj
  by_cases hgt : r[j] > r[j + 1]
  · refine ⟨(r.set j r[j + 1]).set (j + 1) r[j], ?_, ?_, ?_, ?_, ?_⟩
    · simp only [swapStep, ha, hb]
      simp [hgt]
    · simp
    · exact perm_swap r j _ _ ha hb
    · intro M hM hS p q a b hpq hMq hp hq
      rw [getElem?_swap r j _ _ _ ha hb] at hp hq
      have hq1 : ¬ q = j + 1 := by omega
      have hq2 : ¬ q = j := by omega
      simp only [hq1, hq2, if_false] at hq
      by_cases hp1 : p = j + 1
      · simp only [hp1, if_true] at hp
        exact hS j q a b (by omega) hMq (by rw [ha, hp]) hq
      · by_cases hp2 : p = j
        · subst hp2
          rw [if_neg hp1, if_pos rfl] at hp
          exact hS (p + 1) q a b (by omega) hMq (by rw [hb, hp]) hq
        · simp only [hp1, hp2, if_false] at hp
          exact hS p q a b hpq hMq hp hq
    · intro hmax p a b hp hpa hpb
      rw [getElem?_swap r j _ _ _ ha hb] at hpa hpb
      simp only [if_true] at hpb
      have hb2 : b = r[j] := by
        injection hpb with h
        exact h.symm
      by_cases hp1 : p = j + 1
      · simp only [hp1, if_true] at hpa
        injection hpa with h
        omega
      · by_cases hp2 : p = j
        · subst hp2
          rw [if_neg hp1, if_pos rfl] at hpa
          injection hpa with h
          omega
        · simp only [hp1, hp2, if_false] at hpa
          have := hmax p a r[j] (by omega) hpa ha
          omega
  · refine ⟨r, ?_, rfl, List.Perm.refl _, fun _ _ h => h, ?_⟩
    · simp only [swapStep, ha, hb]
      simp [hgt]
    · intro hmax p a b hp hpa hpb
      have hb2 : b = r[j + 1] := by
        rw [hb] at hpb
        injection hpb with h
        exact h.symm
      by_cases hp1 : p = j + 1
      · subst hp1
        rw [hb] at hpa
        injection hpa with h
        omega
      · have := hmax p a r[j] (by omega) hpa ha
        omega

/-- The inner loop from index `j` with `k` iterations left, when `j + k` is inside the
slice. -/
theorem innerLoop_spec (k : Nat) : ∀ (j : Nat) (r : List Int), j + k < r.length →
    ∃ r2, innerLoop j k r = some r2 ∧ r2.length = r.length ∧ List.Perm r2 r ∧
      (∀ M, j + k < M → SuffixOrdered M r → SuffixOrdered M r2) ∧
      (MaxAt j r → MaxAt (j + k) r2) := by
  induction k with
  | zero =>
    intro j r _
    exact ⟨r, rfl, rfl, List.Perm.refl _, fun _ _ h => h, fun h => h⟩
  | succ k ih =>
    intro j r hjk
    obtain ⟨r1, h1, hl1, hp1, hs1, hm1⟩ := swapStep_spec r j (by omega)
    obtain ⟨r2, h2, hl2, hp2, hs2, hm2⟩ := ih (j + 1) r1 (by omega)
    refine ⟨r2, ?_, by omega, hp2.trans hp1, ?_, ?_⟩
    · simp [innerLoop, h1, h2]
    · intro M hM hS
      exact hs2 M (by omega) (hs1 M (by omega) hS)
    · intro hmax
      have := hm2 (hm1 hmax)
      rwa [show j + 1 + k = j + (k + 1) by omega] at this

/-- The outer loop running the `k` passes `i, ..., i + k - 1`, `i + k ≤ n`. -/
theorem outerLoop_spec (n k : Nat) : ∀ (i : Nat) (r : List Int), i + k ≤ n → r.length = n →
    SuffixOrdered (n - i) r →
    ∃ r2, outerLoop n i k r = some r2 ∧ r2.length = n ∧ List.Perm r2 r ∧
      SuffixOrdered (n - i - k) r2 := by
  induction k with
  | zero =>
    intro i r _ hl hS
    exact ⟨r, rfl, hl, List.Perm.refl _, hS⟩
  | succ k ih =>
    intro i r hik hl hS
    obtain ⟨r1, h1, hl1, hp1, hs1, hm1⟩ := innerLoop_spec (n - i - 1) 0 r (by omega)
    have hmax : MaxAt (n - i - 1) r1 := by
      have h0 : MaxAt 0 r := by
        intro p a b hp hpa hpb
        have hp0 : p = 0 := by omega
        subst hp0
        rw [hpa] at hpb
        injection hpb with h
        omega
      simpa using hm1 h0
    have hS1 : SuffixOrdered (n - (i + 1)) r1 := by
      intro p q a b hpq hq hpa hqb
      by_cases hqe : q = n - i - 1
      · subst hqe
        exact hmax p a b (by omega) hpa hqb
      · exact hs1 (n - i) (by omega) hS p q a b hpq (by omega) hpa hqb
    obtain ⟨r2, h2, hl2, hp2, hs2⟩ := ih (i + 1) r1 (by omega) (by omega) hS1
    refine ⟨r2, ?_, hl2, hp2.trans hp1, ?_⟩
    · simp [outerLoop, h1, h2]
    · rwa [show n - i - (k + 1) = n - (i + 1) - k by omega]

theorem sorted_of_suffixOrdered_zero (r : List Int) (h : SuffixOrdered 0 r) :
    List.Sorted (fun a b : Int => a ≤ b) r := by
  unfold List.Sorted
  rw [List.pairwise_iff_getElem]
  intro i j hi hj hij
  exact h i j r[i] r[j] hij (Nat.zero_le _) (List.getElem?_eq_getElem hi)
    (List.getElem?_eq_getElem hj)

/-- Function `BubbleSort` returns, and what it returns is a sorted permutation of its input. -/
theorem BubbleSort_spec (S : List Int) :
    ∃ out, BubbleSort S = some out ∧ List.Perm out S ∧
      List.Sorted (fun a b : Int => a ≤ b) out := by
  have h0 : SuffixOrdered (S.length - 0) S := by
    intro p q a b _ hq _ hqb
    have := getElem?_lt_length hqb
    omega
  obtain ⟨out, h1, _, hp, hs⟩ := outerLoop_spec S.length S.length 0 S (by omega) rfl h0
  refine ⟨out, h1, hp, sorted_of_suffixOrdered_zero out ?_⟩
  simpa using hs

/-! ## Merge sort: lemmas -/

/-- The loop of `merge` with enough iterations allowed: it exits, and at the exit
`result` followed by the two remainders is the initial `result` followed by the
two-way merge of the initial remainders. -/
theorem mergeLoop_spec (left right : List Int) (fuel : Nat) :
    ∀ (i j : Nat) (result : List Int),
      (left.length - i) + (right.length - j) ≤ fuel →
      ∃ i2 j2 result2, mergeLoop left right fuel i j result = some (i2, j2, result2) ∧
        i2 ≤ max i left.length ∧ j2 ≤ max j right.length ∧
        result2 ++ left.drop i2 ++ right.drop j2 =
          result ++ List.merge (left.drop i) (right.drop j) leInt := by
  induction fuel with
  | zero =>
    intro i j result hf
    have hc : ¬ (i < left.length ∧ j < right.length) := by omega
    refine ⟨i, j, result, by simp [mergeLoop, hc], le_max_left _ _, le_max_left _ _, ?_⟩
    have : left.drop i = [] := List.drop_eq_nil_of_le (by omega)
    have : right.drop j = [] := List.drop_eq_nil_of_le (by omega)
    simp [*]
  | succ fuel ih =>
    intro i j result hf
    by_cases hc : i < left.length ∧ j < right.length
    · obtain ⟨hi, hj⟩ := hc
      have ha : left[i]? = some left[i] := List.getElem?_eq_getElem hi
      have hb : right[j]? = some right[j] := List.getElem?_eq_getElem hj
      have hdl : left.drop i = left[i] :: left.drop (i + 1) := List.drop_eq_getElem_cons hi
      have hdr : right.drop j = right[j] :: right.drop (j + 1) :=
        List.drop_eq_getElem_cons hj
      by_cases hle : left[i] ≤ right[j]
      · obtain ⟨i2, j2, r2, h1, h2, h3, h4⟩ := ih (i + 1) j (result ++ [left[i]]) (by omega)
        refine ⟨i2, j2, r2, ?_, by omega, h3, ?_⟩
        · simp only [mergeLoop, hi, hj, and_self, if_true, ha, hb]
          simp [hle, h1]
        · rw [h4, hdl, hdr, List.cons_merge_cons_pos]
          · simp [← hdr]
          · simp [leInt, hle]
      · obtain ⟨i2, j2, r2, h1, h2, h3, h4⟩ := ih i (j + 1) (result ++ [right[j]]) (by omega)
        refine ⟨i2, j2, r2, ?_, h2, by omega, ?_⟩
        · simp only [mergeLoop, hi, hj, and_self, if_true, ha, hb]
          simp [hle, h1]
        · rw [h4, hdl, hdr, List.cons_merge_cons_neg]
          · simp [← hdl]
          · simp [leInt, hle]
    · refine ⟨i, j, result, by simp [mergeLoop, hc], le_max_left _ _, le_max_left _ _, ?_⟩
      rcases Nat.lt_or_ge i left.length with hi | hi
      · have hj : right.length ≤ j := by omega
        simp [List.drop_eq_nil_of_le hj]
      · simp [List.drop_eq_nil_of_le hi]

/-- Function `merge` returns the two-way merge of its arguments. -/
theorem merge_eq (left right : List Int) :
    merge left right = some (List.merge left right leInt) := by
  obtain ⟨i2, j2, r2, h1, h2, h3, h4⟩ :=
    mergeLoop_spec left right (left.length + right.length) 0 0 [] (by omega)
  have hi : i2 ≤ left.length := by simpa using h2
  have hj : j2 ≤ right.length := by simpa using h3
  simp only [merge, h1, sliceFrom, hi, hj, if_true, Option.some_bind]
  simpa using h4

theorem sorted_iff_pairwise_leInt (l : List Int) :
    List.Sorted (fun a b : Int => a ≤ b) l ↔ l.Pairwise (fun a b => leInt a b = true) := by
  simp [List.Sorted, leInt]

/-- The two-way merge of two sorted lists is sorted. -/
theorem sorted_listMerge (l1 l2 : List Int)
    (h1 : List.Sorted (fun a b : Int => a ≤ b) l1)
    (h2 : List.Sorted (fun a b : Int => a ≤ b) l2) :
    List.Sorted (fun a b : Int => a ≤ b) (List.merge l1 l2 leInt) := by
  rw [sorted_iff_pairwise_leInt] at *
  refine List.sorted_merge ?_ ?_ l1 l2 h1 h2
  · intro a b c hab hbc
    simp only [leInt, decide_eq_true_eq] at *
    omega
  · intro a b
    simp only [leInt, Bool.or_eq_true, decide_eq_true_eq]
    omega

/-- With a recursion bound of at least the length, `MergeSortFuel` returns a sorted
permutation of its input. -/
theorem MergeSortFuel_spec (fuel : Nat) : ∀ (arr : List Int), arr.length ≤ fuel →
    ∃ out, MergeSortFuel fuel arr = some out ∧ List.Perm out arr ∧
      List.Sorted (fun a b : Int => a ≤ b) out := by
  have hshort : ∀ (arr : List Int), arr.length ≤ 1 →
      List.Sorted (fun a b : Int => a ≤ b) arr := by
    intro arr h
    match arr, h with
    | [], _ => exact List.sorted_nil
    | [a], _ => exact List.sorted_singleton a
    | _ :: _ :: _, h => simp at h
  induction fuel with
  | zero =>
    intro arr h
    have h1 : arr.length ≤ 1 := by omega
    exact ⟨arr, by simp [MergeSortFuel, h1], List.Perm.refl _, hshort arr h1⟩
  | succ fuel ih =>
    intro arr h
    by_cases h1 : arr.length ≤ 1
    · exact ⟨arr, by simp [MergeSortFuel, h1], List.Perm.refl _, hshort arr h1⟩
    · have hmid : arr.length / 2 ≤ arr.length := Nat.div_le_self _ _
      have hmid2 : 0 < arr.length / 2 := by omega
      obtain ⟨left, hl, hlp, hls⟩ := ih (arr.take (arr.length / 2))
        (by rw [List.length_take]; omega)
      obtain ⟨right, hr, hrp, hrs⟩ := ih (arr.drop (arr.length / 2))
        (by rw [List.length_drop]; omega)
      refine ⟨List.merge left right leInt, ?_, ?_, sorted_listMerge left right hls hrs⟩
      · simp only [MergeSortFuel, h1, if_false, sliceTo, sliceFrom, hmid, if_true,
          Option.some_bind, hl, hr, merge_eq]
      · have hcat : List.Perm (left ++ right) arr := by
          have := hlp.append hrp
          rwa [List.take_append_drop] at this
        exact (List.merge_perm_append leInt).trans hcat

/-- Function `MergeSort` returns, and what it returns is a sorted permutation of its input. -/
theorem MergeSort_spec (S : List Int) :
    ∃ out, MergeSort S = some out ∧ List.Perm out S ∧
      List.Sorted (fun a b : Int => a ≤ b) out :=
  MergeSortFuel_spec S.length S (Nat.le_refl _)

/-! ## Consequences shared by the two sorts -/

/-- A sorted list has every adjacent pair in order. -/
theorem adjacent_of_sorted (out : List Int)
    (h : List.Sorted (fun a b : Int => a ≤ b) out) :
    ∀ (k : Nat) (a b : Int), out[k]? = some a → out[k + 1]? = some b → a ≤ b := by
  intro k a b ha hb
  unfold List.Sorted at h
  rw [List.pairwise_iff_getElem] at h
  obtain ⟨hk, hka⟩ := List.getElem?_eq_some_iff.mp ha
  obtain ⟨hk1, hkb⟩ := List.getElem?_eq_some_iff.mp hb
  have := h k (k + 1) hk hk1 (Nat.lt_succ_self k)
  rwa [hka, hkb] at this

/-- A list whose adjacent pairs are all in order is sorted. -/
theorem sorted_of_adjacent : ∀ (S : List Int),
    (∀ (k : Nat) (a b : Int), S[k]? = some a → S[k + 1]? = some b → a ≤ b) →
    List.Sorted (fun a b : Int => a ≤ b) S
  | [], _ => List.sorted_nil
  | [a], _ => List.sorted_singleton a
  | a :: b :: t, h => by
    have hab : a ≤ b := h 0 a b (by simp) (by simp)
    have ht : List.Sorted (fun a b : Int => a ≤ b) (b :: t) :=
      sorted_of_adjacent (b :: t)
        (fun k x y hx hy => h (k + 1) x y (by simpa using hx) (by simpa using hy))
    unfold List.Sorted at *
    refine List.Pairwise.cons ?_ ht
    intro x hx
    rcases List.mem_cons.mp hx with rfl | hxt
    · exact hab
    · exact le_trans hab (List.rel_of_pairwise_cons ht hxt)

/-- A sorted permutation of a sorted list is that list. -/
theorem eq_of_sorted_perm (out S : List Int) (hp : List.Perm out S)
    (ho : List.Sorted (fun a b : Int => a ≤ b) out)
    (hs : List.Sorted (fun a b : Int => a ≤ b) S) : out = S :=
  List.eq_of_perm_of_sorted hp ho hs

/-- A sorted input is returned as it is by `BubbleSort`. -/
theorem BubbleSort_of_sorted (S : List Int)
    (hs : List.Sorted (fun a b : Int => a ≤ b) S) : BubbleSort S = some S := by
  obtain ⟨out, h, hp, ho⟩ := BubbleSort_spec S
  rw [h, eq_of_sorted_perm out S hp ho hs]

/-- A sorted input is returned as it is by `MergeSort`. -/
theorem MergeSort_of_sorted (S : List Int)
    (hs : List.Sorted (fun a b : Int => a ≤ b) S) : MergeSort S = some S := by
  obtain ⟨out, h, hp, ho⟩ := MergeSort_spec S
  rw [h, eq_of_sorted_perm out S hp ho hs]

/-! ## Generators: lemmas -/

/-- The filling loop from index `i` with `k = len(arr) - i` iterations left: it succeeds,
keeps the length, leaves the positions before `i` alone and stores `f p` at every
position `p` from `i` on. -/
theorem fillLoop_spec (f : Nat → Int) (k : Nat) : ∀ (i : Nat) (arr : List Int),
    i + k = arr.length →
    ∃ out, fillLoop f i k arr = some out ∧ out.length = arr.length ∧
      (∀ p, p < i → out[p]? = arr[p]?) ∧
      (∀ p, i ≤ p → p < arr.length → out[p]? = some (f p)) := by
  induction k with
  | zero =>
    intro i arr h
    exact ⟨arr, rfl, rfl, fun _ _ => rfl, fun p h1 h2 => by omega⟩
  | succ k ih =>
    intro i arr h
    have hi : i < arr.length := by omega
    obtain ⟨out, h1, h2, h3, h4⟩ := ih (i + 1) (arr.set i (f i)) (by simp; omega)
    refine ⟨out, by simp [fillLoop, hi, h1], by simpa using h2, ?_, ?_⟩
    · intro p hp
      rw [h3 p (by omega), List.getElem?_set_ne (by omega)]
    · intro p hp hpl
      rcases Nat.eq_or_lt_of_le hp with rfl | hlt
      · rw [h3 i (by omega), List.getElem?_set_self hi]
      · exact h4 p (by omega) (by simpa using hpl)

/-- The allocation succeeds exactly for the lengths between `0` and `maxSliceLen` that
the free memory holds. -/
theorem makeSlice_eq_some (avail : Nat) (n : Int) (hn : 0 ≤ n)
    (hmax : n ≤ (maxSliceLen : Int)) (hav : n ≤ (avail : Int)) :
    makeSlice avail n = some (List.replicate n.toNat 0) := by
  have h : 0 ≤ n ∧ n.toNat ≤ maxSliceLen ∧ n.toNat ≤ avail := ⟨hn, by omega, by omega⟩
  simp only [makeSlice, h, and_self, if_true]

theorem makeSlice_eq_none (avail : Nat) (n : Int)
    (h : n < 0 ∨ (maxSliceLen : Int) < n ∨ (avail : Int) < n) :
    makeSlice avail n = none := by
  have hc : ¬ (0 ≤ n ∧ n.toNat ≤ maxSliceLen ∧ n.toNat ≤ avail) := by omega
  simp only [makeSlice, hc, if_false]

/-- A generator body `arr := make([]int, n); for i := range arr { arr[i] = f(i) }` with a
length `n` that can be allocated returns the list of `f 0, ..., f (n-1)`. -/
theorem generate_eq (f : Nat → Int) (avail : Nat) (n : Int) (hn : 0 ≤ n)
    (hmax : n ≤ (maxSliceLen : Int)) (hav : n ≤ (avail : Int)) :
    ((makeSlice avail n).bind fun arr => fillLoop f 0 arr.length arr) =
      some ((List.range n.toNat).map f) := by
  obtain ⟨out, h1, h2, _, h4⟩ :=
    fillLoop_spec f n.toNat 0 (List.replicate n.toNat 0) (by simp)
  have hlen : out.length = n.toNat := by simpa using h2
  simp only [makeSlice_eq_some avail n hn hmax hav, Option.some_bind, List.length_replicate,
    h1]
  congr 1
  apply List.ext_getElem?
  intro p
  by_cases hp : p < n.toNat
  · rw [h4 p (Nat.zero_le _) (by simpa using hp)]
    simp [hp]
  · rw [List.getElem?_eq_none (by omega), List.getElem?_eq_none (by simp; omega)]

/-! ## The sorts over the memory: lemmas -/

theorem contents_append (m ext : Mem) (s : Slice) (h : s.base + s.len ≤ m.length) :
    contents (m ++ ext) s = contents m s := by
  unfold contents
  rw [List.drop_append_of_le_length (by omega), List.take_append_of_le_length]
  rw [List.length_drop]
  omega

theorem length_contents (m : Mem) (s : Slice) (h : s.base + s.len ≤ m.length) :
    (contents m s).length = s.len := by
  unfold contents
  rw [List.length_take, List.length_drop]
  omega

/-- Reading a slice that lies in `m` is not affected by later allocations. -/
theorem loadAt_append (m ext : Mem) (s : Slice) (i : Nat) (h : s.base + s.len ≤ m.length) :
    loadAt (m ++ ext) s i = (contents m s)[i]? := by
  unfold loadAt contents
  by_cases hi : i < s.len
  · rw [if_pos hi, List.getElem?_append_left (by omega), List.getElem?_take_of_lt hi,
      List.getElem?_drop]
  · rw [if_neg hi, List.getElem?_eq_none]
    rw [List.length_take]
    omega

/-- Reading the backing array `l` allocated right behind `m`. -/
theorem loadAt_fresh (m l : List Int) (c j : Nat) :
    loadAt (m ++ l) ⟨m.length, l.length, c⟩ j = l[j]? := by
  unfold loadAt
  by_cases hj : j < l.length
  · simp only [hj, if_true]
    rw [List.getElem?_append_right (by omega)]
    simp
  · simp only [hj, if_false]
    rw [List.getElem?_eq_none (by omega)]

/-- Writing into the backing array `l` allocated right behind `m`. -/
theorem storeAt_fresh (m l : List Int) (c j : Nat) (v : Int) (hj : j < l.length) :
    storeAt (m ++ l) ⟨m.length, l.length, c⟩ j v = some (m ++ l.set j v) := by
  unfold storeAt
  have h1 : j < l.length ∧ m.length + j < (m ++ l).length := by
    rw [List.length_append]
    omega
  simp only [h1, and_self, if_true]
  rw [List.set_append_right _ _ (by omega)]
  simp

theorem swapStep_length (l l2 : List Int) (j : Nat) (h : swapStep l j = some l2) :
    l2.length = l.length := by
  unfold swapStep at h
  split at h
  · split at h
    · injection h with h
      rw [← h]
      simp
    · injection h with h
      rw [h]
  · exact absurd h (by simp)

/-- The body of the inner loop on the memory does to the fresh backing array what
`swapStep` does to the list. -/
theorem swapStepM_fresh (m l : List Int) (c j : Nat) :
    swapStepM (m ++ l) ⟨m.length, l.length, c⟩ j = (swapStep l j).map (fun l2 => m ++ l2) := by
  unfold swapStepM swapStep
  rw [loadAt_fresh, loadAt_fresh]
  cases ha : l[j]? with
  | none => simp
  | some a =>
    cases hb : l[j + 1]? with
    | none => simp
    | some b =>
      have hj1 : j + 1 < l.length := getElem?_lt_length hb
      by_cases hgt : a > b
      · simp only [hgt, if_true, Option.map_some']
        rw [storeAt_fresh m l c j b (by omega)]
        have := storeAt_fresh m (l.set j b) c (j + 1) a (by simpa using hj1)
        rw [List.length_set] at this
        simp [this]
      · simp [hgt]

theorem innerLoopM_fresh (m : List Int) (c k : Nat) : ∀ (j : Nat) (l : List Int),
    innerLoopM ⟨m.length, l.length, c⟩ j k (m ++ l) =
      (innerLoop j k l).map (fun l2 => m ++ l2) := by
  induction k with
  | zero => intro j l; rfl
  | succ k ih =>
    intro j l
    simp only [innerLoopM, innerLoop, swapStepM_fresh]
    cases h : swapStep l j with
    | none => rfl
    | some l2 =>
      have := ih (j + 1) l2
      rw [swapStep_length l l2 j h] at this
      simpa using this

theorem innerLoop_length (k : Nat) : ∀ (j : Nat) (l l2 : List Int),
    innerLoop j k l = some l2 → l2.length = l.length := by
  induction k with
  | zero =>
    intro j l l2 h
    injection h with h
    rw [h]
  | succ k ih =>
    intro j l l2 h
    simp only [innerLoop] at h
    obtain ⟨l1, h1, h2⟩ := Option.bind_eq_some.mp h
    rw [ih (j + 1) l1 l2 h2, swapStep_length l l1 j h1]

theorem outerLoopM_fresh (m : List Int) (c n k : Nat) : ∀ (i : Nat) (l : List Int),
    outerLoopM ⟨m.length, l.length, c⟩ n i k (m ++ l) =
      (outerLoop n i k l).map (fun l2 => m ++ l2) := by
  induction k with
  | zero => intro i l; rfl
  | succ k ih =>
    intro i l
    simp only [outerLoopM, outerLoop, innerLoopM_fresh]
    cases h : innerLoop 0 (n - i - 1) l with
    | none => rfl
    | some l2 =>
      have := ih (i + 1) l2
      rw [innerLoop_length _ _ l l2 h] at this
      simpa using this

/-- Copying `k` elements from index `i` on, from a slice inside `m` into the backing array
`l` allocated right behind `m`. -/
theorem copyLoopM_fresh (m : List Int) (src : Slice) (c : Nat)
    (hsrc : src.base + src.len ≤ m.length) (k : Nat) : ∀ (i : Nat) (l : List Int),
    i + k ≤ l.length → i + k ≤ src.len →
    ∃ l2, copyLoopM ⟨m.length, l.length, c⟩ src i k (m ++ l) = some (m ++ l2) ∧
      l2.length = l.length ∧ (∀ p, p < i → l2[p]? = l[p]?) ∧
      (∀ p, i ≤ p → p < i + k → l2[p]? = (contents m src)[p]?) := by
  induction k with
  | zero =>
    intro i l _ _
    exact ⟨l, rfl, rfl, fun _ _ => rfl, fun p h1 h2 => by omega⟩
  | succ k ih =>
    intro i l hl hs
    have hlen := length_contents m src hsrc
    have hi : i < (contents m src).length := by omega
    obtain ⟨l2, h1, h2, h3, h4⟩ := ih (i + 1) (l.set i (contents m src)[i])
      (by rw [List.length_set]; omega) (by omega)
    rw [List.length_set] at h1 h2
    refine ⟨l2, ?_, h2, ?_, ?_⟩
    · simp only [copyLoopM, loadAt_append m l src i hsrc, List.getElem?_eq_getElem hi,
        Option.some_bind, storeAt_fresh m l c i _ (show i < l.length by omega)]
      exact h1
    · intro p hp
      rw [h3 p (by omega), List.getElem?_set_ne (by omega)]
    · intro p hp hpk
      rcases Nat.eq_or_lt_of_le hp with rfl | hlt
      · rw [h3 i (by omega), List.getElem?_set_self (by omega), List.getElem?_eq_getElem hi]
      · exact h4 p (by omega) (by omega)

/-- Function `BubbleSort` on the memory allocates one backing array behind the memory it was given,
and leaves in it what `BubbleSort` on lists returns for the contents of the argument. -/
theorem BubbleSortM_eq (m : Mem) (arr : Slice) (h : arr.base + arr.len ≤ m.length) :
    BubbleSortM m arr =
      (BubbleSort (contents m arr)).map
        (fun out => ((⟨m.length, arr.len, arr.len⟩ : Slice), m ++ out)) := by
  have hlen := length_contents m arr h
  obtain ⟨l2, h1, h2, _, h4⟩ :=
    copyLoopM_fresh m arr arr.len h arr.len 0 (List.replicate arr.len 0)
      (by simp) (by omega)
  rw [List.length_replicate] at h1 h2
  have hl2 : l2 = contents m arr := by
    apply List.ext_getElem?
    intro p
    by_cases hp : p < arr.len
    · exact h4 p (Nat.zero_le _) (by omega)
    · rw [List.getElem?_eq_none (by omega), List.getElem?_eq_none (by omega)]
  subst hl2
  have hout := outerLoopM_fresh m arr.len (contents m arr).length
    (contents m arr).length 0 (contents m arr)
  rw [hlen] at hout
  simp only [BubbleSortM, alloc, Nat.le_refl, if_true, Option.some_bind, copyM, Nat.min_self,
    h1, hout, BubbleSort, hlen]
  cases outerLoop arr.len 0 arr.len (contents m arr) <;> rfl

theorem region_full (cap : Nat) (acc : List Int) (h : cap ≤ acc.length) :
    region cap acc = acc := by
  unfold region
  rw [Nat.sub_eq_zero_of_le h]
  simp

/-- Appending within the capacity writes into the slice's own backing array. -/
theorem appendOne_fresh (m acc : List Int) (cap : Nat) (v : Int) (h : acc.length < cap) :
    appendOne (m ++ region cap acc) ⟨m.length, acc.length, cap⟩ v =
      some (⟨m.length, (acc ++ [v]).length, cap⟩, m ++ region cap (acc ++ [v])) := by
  obtain ⟨k, hk⟩ : ∃ k, cap - acc.length = k + 1 := ⟨cap - acc.length - 1, by omega⟩
  have hk2 : cap - (acc ++ [v]).length = k := by
    rw [List.length_append, List.length_singleton]
    omega
  unfold appendOne region
  rw [hk, hk2]
  simp only [h, if_true, List.length_append, List.length_replicate, List.length_singleton]
  rw [if_pos (by omega)]
  rw [List.set_append_right _ _ (by omega), List.set_append_right _ _ (by omega)]
  simp [List.replicate_succ]

theorem contents_sliceFrom (m : Mem) (s : Slice) (i c : Nat) :
    contents m ⟨s.base + i, s.len - i, c⟩ = (contents m s).drop i := by
  unfold contents
  rw [List.drop_take, List.drop_drop]

theorem contents_sliceTo (m : Mem) (s : Slice) (i c : Nat) (h : i ≤ s.len) :
    contents m ⟨s.base, i, c⟩ = (contents m s).take i := by
  unfold contents
  rw [List.take_take, Nat.min_eq_left h]

/-- The loop of `merge` on the memory, with `result` in a backing array allocated right
behind `m` and large enough for what is left to merge: it does what `mergeLoop` does on
the contents, writing only into that backing array. -/
theorem mergeLoopM_fresh (m : List Int) (left right : Slice) (cap : Nat)
    (hl : left.base + left.len ≤ m.length) (hr : right.base + right.len ≤ m.length)
    (fuel : Nat) : ∀ (i j : Nat) (acc : List Int) (i2 j2 : Nat) (acc2 : List Int),
    acc.length + (left.len - i) + (right.len - j) ≤ cap →
    mergeLoop (contents m left) (contents m right) fuel i j acc = some (i2, j2, acc2) →
    mergeLoopM left right fuel i j ⟨m.length, acc.length, cap⟩ (m ++ region cap acc) =
        some (i2, j2, ⟨m.length, acc2.length, cap⟩, m ++ region cap acc2) ∧
      acc2.length + (left.len - i2) + (right.len - j2) ≤ cap := by
  have hll := length_contents m left hl
  have hrl := length_contents m right hr
  induction fuel with
  | zero =>
    intro i j acc i2 j2 acc2 hcap h
    simp only [mergeLoop, hll, hrl] at h
    simp only [mergeLoopM]
    split at h
    · exact absurd h (by simp)
    · rename_i hc
      simp only [Option.some.injEq, Prod.mk.injEq] at h
      obtain ⟨rfl, rfl, rfl⟩ := h
      rw [if_neg hc]
      exact ⟨rfl, hcap⟩
  | succ fuel ih =>
    intro i j acc i2 j2 acc2 hcap h
    simp only [mergeLoop, hll, hrl] at h
    simp only [mergeLoopM, loadAt_append m _ left i hl, loadAt_append m _ right j hr]
    by_cases hc : i < left.len ∧ j < right.len
    · rw [if_pos hc] at h ⊢
      have ha : (contents m left)[i]? = some (contents m left)[i] :=
        List.getElem?_eq_getElem (by omega)
      have hb : (contents m right)[j]? = some (contents m right)[j] :=
        List.getElem?_eq_getElem (by omega)
      rw [ha, hb] at h ⊢
      simp only at h ⊢
      by_cases hle : (contents m left)[i] ≤ (contents m right)[j]
      · rw [if_pos hle] at h ⊢
        rw [appendOne_fresh m acc cap _ (by omega)]
        exact ih (i + 1) j _ i2 j2 acc2
          (by rw [List.length_append, List.length_singleton]; omega) h
      · rw [if_neg hle] at h ⊢
        rw [appendOne_fresh m acc cap _ (by omega)]
        exact ih i (j + 1) _ i2 j2 acc2
          (by rw [List.length_append, List.length_singleton]; omega) h
    · rw [if_neg hc] at h ⊢
      simp only [Option.some.injEq, Prod.mk.injEq] at h
      obtain ⟨rfl, rfl, rfl⟩ := h
      exact ⟨rfl, hcap⟩

/-- Call `append(result, src...)` on the memory, with `result` in a backing array allocated
right behind `m` and large enough: the elements of `src` are written behind those of
`result`, in that backing array. -/
theorem appendLoopM_fresh (m : List Int) (src : Slice) (cap : Nat)
    (hs : src.base + src.len ≤ m.length) (n : Nat) : ∀ (k : Nat) (acc : List Int),
    k + n ≤ src.len → acc.length + n ≤ cap →
    appendLoopM src k n ⟨m.length, acc.length, cap⟩ (m ++ region cap acc) =
      some (⟨m.length, (acc ++ ((contents m src).drop k).take n).length, cap⟩,
        m ++ region cap (acc ++ ((contents m src).drop k).take n)) := by
  have hlen := length_contents m src hs
  induction n with
  | zero =>
    intro k acc _ _
    simp [appendLoopM]
  | succ n ih =>
    intro k acc hk hcap
    have hk2 : k < (contents m src).length := by omega
    simp only [appendLoopM, loadAt_append m _ src k hs, List.getElem?_eq_getElem hk2,
      Option.some_bind, appendOne_fresh m acc cap _ (show acc.length < cap by omega)]
    rw [ih (k + 1) _ (by omega) (by rw [List.length_append, List.length_singleton]; omega)]
    have hcat : acc ++ [(contents m src)[k]] ++ ((contents m src).drop (k + 1)).take n =
        acc ++ ((contents m src).drop k).take (n + 1) := by
      rw [List.drop_eq_getElem_cons hk2, List.take_succ_cons, List.append_assoc,
        List.singleton_append]
    rw [hcat]

/-- Call `append(result, src...)` for a whole slice `src` inside `m`. -/
theorem appendAllM_fresh (m : List Int) (src : Slice) (cap : Nat) (acc : List Int)
    (hs : src.base + src.len ≤ m.length) (hcap : acc.length + src.len ≤ cap) :
    appendAllM (m ++ region cap acc) ⟨m.length, acc.length, cap⟩ src =
      some (⟨m.length, (acc ++ contents m src).length, cap⟩,
        m ++ region cap (acc ++ contents m src)) := by
  have hlen := length_contents m src hs
  have := appendLoopM_fresh m src cap hs src.len 0 acc (by omega) hcap
  rw [List.drop_zero, List.take_of_length_le (by omega)] at this
  exact this

/-- Function `merge` on the memory allocates one backing array behind the memory it was given and
leaves in it what `merge` on lists returns for the contents of its arguments. -/
theorem mergeM_eq (m : Mem) (left right : Slice)
    (hl : left.base + left.len ≤ m.length) (hr : right.base + right.len ≤ m.length)
    (out : List Int) (hout : merge (contents m left) (contents m right) = some out) :
    mergeM m left right = some (⟨m.length, out.length, left.len + right.len⟩, m ++ out) := by
  have hll := length_contents m left hl
  have hrl := length_contents m right hr
  obtain ⟨i2, j2, r2, h1, h2, h3, h4⟩ :=
    mergeLoop_spec (contents m left) (contents m right)
      ((contents m left).length + (contents m right).length) 0 0 [] (by omega)
  have hi : i2 ≤ left.len := by
    rw [hll] at h2
    simpa using h2
  have hj : j2 ≤ right.len := by
    rw [hrl] at h3
    simpa using h3
  have hout2 : out = List.merge (contents m left) (contents m right) leInt := by
    rw [merge_eq] at hout
    injection hout with h
    exact h.symm
  have hr2 : r2 ++ (contents m left).drop i2 ++ (contents m right).drop j2 = out := by
    rw [hout2, h4]
    simp
  have hlen_out : out.length = left.len + right.len := by
    rw [hout2, List.length_merge, hll, hrl]
  rw [hll, hrl] at h1
  obtain ⟨h5, h6⟩ := mergeLoopM_fresh m left right (left.len + right.len) hl hr
    (left.len + right.len) 0 0 [] i2 j2 r2 (by simp) h1
  have hreg0 : region (left.len + right.len) [] = List.replicate (left.len + right.len) 0 := by
    simp [region]
  rw [hreg0] at h5
  have hL : contents m ⟨left.base + i2, left.len - i2, left.cap - i2⟩ =
      (contents m left).drop i2 := contents_sliceFrom m left i2 _
  have hR : contents m ⟨right.base + j2, right.len - j2, right.cap - j2⟩ =
      (contents m right).drop j2 := contents_sliceFrom m right j2 _
  have h7 := appendAllM_fresh m ⟨left.base + i2, left.len - i2, left.cap - i2⟩
    (left.len + right.len) r2 (show left.base + i2 + (left.len - i2) ≤ m.length by omega)
    (show r2.length + (left.len - i2) ≤ left.len + right.len by omega)
  rw [hL] at h7
  have h8 := appendAllM_fresh m ⟨right.base + j2, right.len - j2, right.cap - j2⟩
    (left.len + right.len) (r2 ++ (contents m left).drop i2)
    (show right.base + j2 + (right.len - j2) ≤ m.length by omega)
    (by
      rw [List.length_append, List.length_drop, hll]
      show r2.length + (left.len - i2) + (right.len - j2) ≤ left.len + right.len
      omega)
  rw [hR, hr2, region_full (left.len + right.len) out (by omega)] at h8
  simp only [List.length_nil] at h5
  simp only [mergeM, alloc, Nat.zero_le, if_true, Option.some_bind, h5,
    sliceFromM, hi, hj, h7, h8]

theorem contents_fresh (m out : List Int) (c : Nat) :
    contents (m ++ out) ⟨m.length, out.length, c⟩ = out := by
  unfold contents
  rw [List.drop_append_of_le_length (Nat.le_refl _), List.drop_length, List.nil_append,
    List.take_length]

/-- Function `MergeSort` on the memory only allocates behind the memory it was given, and the slice
it returns holds what `MergeSort` on lists returns for the contents of the argument. -/
theorem MergeSortFuelM_spec (fuel : Nat) : ∀ (m : Mem) (arr : Slice) (out : List Int),
    arr.base + arr.len ≤ m.length → arr.len ≤ arr.cap →
    MergeSortFuel fuel (contents m arr) = some out →
    ∃ s ext, MergeSortFuelM fuel m arr = some (s, m ++ ext) ∧
      s.base + s.len ≤ (m ++ ext).length ∧ contents (m ++ ext) s = out := by
  have hbase : ∀ (fuel : Nat) (m : Mem) (arr : Slice) (out : List Int),
      arr.base + arr.len ≤ m.length → arr.len ≤ 1 →
      MergeSortFuel fuel (contents m arr) = some out →
      ∃ s ext, MergeSortFuelM fuel m arr = some (s, m ++ ext) ∧
        s.base + s.len ≤ (m ++ ext).length ∧ contents (m ++ ext) s = out := by
    intro fuel m arr out hin h1 h
    have hlen := length_contents m arr hin
    have hout : out = contents m arr := by
      cases fuel <;> simp [MergeSortFuel, hlen, h1] at h <;> exact h.symm
    refine ⟨arr, [], ?_, by simpa using hin, by simpa using hout.symm⟩
    cases fuel <;> simp [MergeSortFuelM, h1]
  induction fuel with
  | zero =>
    intro m arr out hin _ h
    have hlen := length_contents m arr hin
    by_cases h1 : arr.len ≤ 1
    · exact hbase 0 m arr out hin h1 h
    · simp [MergeSortFuel, hlen, h1] at h
  | succ fuel ih =>
    intro m arr out hin hcap h
    have hlen := length_contents m arr hin
    by_cases h1 : arr.len ≤ 1
    · exact hbase (fuel + 1) m arr out hin h1 h
    · have hmid : arr.len / 2 ≤ arr.len := Nat.div_le_self _ _
      simp only [MergeSortFuel, hlen, h1, if_false, sliceTo, sliceFrom, hmid, if_true,
        Option.some_bind] at h
      obtain ⟨leftL, hleft, h⟩ := Option.bind_eq_some.mp h
      obtain ⟨rightL, hright, hmerge⟩ := Option.bind_eq_some.mp h
      -- the left half
      rw [← contents_sliceTo m arr (arr.len / 2) arr.cap hmid] at hleft
      obtain ⟨sl, ext1, hl1, hl2, hl3⟩ := ih m ⟨arr.base, arr.len / 2, arr.cap⟩ leftL
        (show arr.base + arr.len / 2 ≤ m.length by omega)
        (show arr.len / 2 ≤ arr.cap by omega) hleft
      -- the right half, in the memory left by the first call
      have hin2 : arr.base + arr.len / 2 + (arr.len - arr.len / 2) ≤ m.length := by omega
      rw [← contents_sliceFrom m arr (arr.len / 2) (arr.cap - arr.len / 2),
        ← contents_append m ext1 _ hin2] at hright
      obtain ⟨sr, ext2, hr1, hr2, hr3⟩ := ih (m ++ ext1)
        ⟨arr.base + arr.len / 2, arr.len - arr.len / 2, arr.cap - arr.len / 2⟩ rightL
        (show arr.base + arr.len / 2 + (arr.len - arr.len / 2) ≤ (m ++ ext1).length by
          rw [List.length_append]; omega)
        (show arr.len - arr.len / 2 ≤ arr.cap - arr.len / 2 by omega) hright
      -- the merge
      have hl4 : contents (m ++ ext1 ++ ext2) sl = leftL := by
        rw [contents_append (m ++ ext1) ext2 sl hl2, hl3]
      have hl5 : sl.base + sl.len ≤ (m ++ ext1 ++ ext2).length := by
        rw [List.length_append]
        omega
      rw [← hl4, ← hr3] at hmerge
      have hm := mergeM_eq (m ++ ext1 ++ ext2) sl sr hl5 hr2 out hmerge
      refine ⟨⟨(m ++ ext1 ++ ext2).length, out.length, sl.len + sr.len⟩,
        ext1 ++ ext2 ++ out, ?_, ?_, ?_⟩
      · have hcapm : arr.len / 2 ≤ arr.cap := by omega
        simp only [MergeSortFuelM, h1, if_false, sliceToM, hcapm, if_true, Option.some_bind,
          hl1, sliceFromM, hmid, hr1, hm]
        simp
      · simp only [List.length_append]
        omega
      · have := contents_fresh (m ++ ext1 ++ ext2) out (sl.len + sr.len)
        simpa using this

/-! ## Merge sort: the recursion -/

/-- Any sufficient recursion bound gives the result of `MergeSort`. -/
theorem MergeSortFuel_eq_MergeSort (fuel : Nat) (arr : List Int) (h : arr.length ≤ fuel) :
    MergeSortFuel fuel arr = MergeSort arr := by
  obtain ⟨o1, h1, hp1, hs1⟩ := MergeSortFuel_spec fuel arr h
  obtain ⟨o2, h2, hp2, hs2⟩ := MergeSort_spec arr
  rw [h1, h2, eq_of_sorted_perm o1 o2 (hp1.trans hp2.symm) hs1 hs2]

/-- The recursion equation of `MergeSort` on an input of length at least 2. -/
theorem MergeSort_unfold (S : List Int) (h : 2 ≤ S.length) :
    MergeSort S =
      (MergeSort (S.take (S.length / 2))).bind fun left =>
        (MergeSort (S.drop (S.length / 2))).bind fun right => merge left right := by
  obtain ⟨k, hk⟩ : ∃ k, S.length = k + 1 := ⟨S.length - 1, by omega⟩
  have h1 : ¬ S.length ≤ 1 := by omega
  have hmid : S.length / 2 ≤ S.length := Nat.div_le_self _ _
  have hl : (S.take (S.length / 2)).length ≤ k := by
    rw [List.length_take]
    omega
  have hr : (S.drop (S.length / 2)).length ≤ k := by
    rw [List.length_drop]
    omega
  have hunf : MergeSort S = MergeSortFuel (k + 1) S := by
    unfold MergeSort
    rw [hk]
  rw [hunf]
  simp only [MergeSortFuel, h1, if_false, sliceTo, sliceFrom, hmid, if_true,
    Option.some_bind, MergeSortFuel_eq_MergeSort k _ hl, MergeSortFuel_eq_MergeSort k _ hr]

/-! ## Failures are exactly the out-of-range accesses -/

/-- The body of the inner loop fails exactly when `j + 1` is not an index of the slice. -/
theorem swapStep_eq_none_iff (r : List Int) (j : Nat) :
    swapStep r j = none ↔ r.length ≤ j + 1 := by
  constructor
  · intro h
    by_contra hlt
    obtain ⟨r2, h2, _⟩ := swapStep_spec r j (by omega)
    rw [h2] at h
    exact absurd h (by simp)
  · intro h
    have hb : r[j + 1]? = none := List.getElem?_eq_none h
    unfold swapStep
    rw [hb]
    cases r[j]? <;> rfl

/-- The slice expression `s[i:]` fails exactly when `i` is beyond the length. -/
theorem sliceFrom_eq_none_iff (s : List Int) (i : Nat) :
    sliceFrom s i = none ↔ s.length < i := by
  unfold sliceFrom
  by_cases h : i ≤ s.length
  · simp [h]
  · simp [h]
    omega

/-! ## Bubble sort: the positions a pass leaves alone -/

/-- One step of the inner loop at `j` leaves the positions beyond `j + 1` alone. -/
theorem swapStep_frame (r r2 : List Int) (j : Nat) (h : swapStep r j = some r2) :
    ∀ p, j + 1 < p → r2[p]? = r[p]? := by
  intro p hp
  unfold swapStep at h
  split at h
  · rename_i a b ha hb
    split at h
    · injection h with h
      rw [← h, getElem?_swap r j a b p ha hb, if_neg (by omega), if_neg (by omega)]
    · injection h with h
      rw [h]
  · exact absurd h (by simp)

/-- The inner loop over `j, ..., j + k - 1` leaves the positions beyond `j + k` alone, and
all positions when it has no iteration. -/
theorem innerLoop_frame (k : Nat) : ∀ (j : Nat) (r r2 : List Int),
    innerLoop j k r = some r2 → ∀ p, (j + k < p ∨ k = 0) → r2[p]? = r[p]? := by
  induction k with
  | zero =>
    intro j r r2 h p _
    injection h with h
    rw [h]
  | succ k ih =>
    intro j r r2 h p hp
    simp only [innerLoop] at h
    obtain ⟨r1, h1, h2⟩ := Option.bind_eq_some.mp h
    have hp2 : j + (k + 1) < p := by omega
    rw [ih (j + 1) r1 r2 h2 p (Or.inl (by omega)), swapStep_frame r r1 j h1 p (by omega)]

/-- The passes `i, i + 1, ...` leave the positions from `n - i` on alone. -/
theorem outerLoop_frame (n k : Nat) : ∀ (i : Nat) (r r2 : List Int),
    outerLoop n i k r = some r2 → ∀ p, n - i ≤ p → r2[p]? = r[p]? := by
  induction k with
  | zero =>
    intro i r r2 h p _
    injection h with h
    rw [h]
  | succ k ih =>
    intro i r r2 h p hp
    simp only [outerLoop] at h
    obtain ⟨r1, h1, h2⟩ := Option.bind_eq_some.mp h
    rw [ih (i + 1) r1 r2 h2 p (by omega),
      innerLoop_frame (n - i - 1) 0 r r1 h1 p (by omega)]

/-- Running `a + b` passes is running `a` passes and then `b` passes. -/
theorem outerLoop_add (n a b : Nat) : ∀ (i : Nat) (r : List Int),
    outerLoop n i (a + b) r = (outerLoop n i a r).bind (outerLoop n (i + a) b) := by
  induction a with
  | zero =>
    intro i r
    simp [outerLoop]
  | succ a ih =>
    intro i r
    rw [show a + 1 + b = (a + b) + 1 by omega]
    simp only [outerLoop]
    cases innerLoop 0 (n - i - 1) r with
    | none => rfl
    | some r1 =>
      simp only [Option.some_bind]
      rw [ih (i + 1) r1, show i + 1 + a = i + (a + 1) by omega]

/-! ## Bubble sort: the number of comparisons -/

theorem innerLoopCount_eq (k : Nat) : ∀ (j : Nat) (r : List Int),
    innerLoopCount j k r = (innerLoop j k r).map (fun r2 => (r2, k)) := by
  induction k with
  | zero => intro j r; rfl
  | succ k ih =>
    intro j r
    simp only [innerLoopCount, innerLoop]
    cases swapStep r j with
    | none => rfl
    | some r1 =>
      simp only [Option.some_bind, ih (j + 1) r1]
      cases innerLoop (j + 1) k r1 <;> rfl

/-- The pass `i + t` of the `k` passes that start at pass `i` makes `n - (i + t) - 1`
comparisons. -/
theorem outerLoopCount_eq (n k : Nat) : ∀ (i : Nat) (r : List Int),
    outerLoopCount n i k r =
      (outerLoop n i k r).map
        (fun r2 => (r2, (List.range k).map (fun t => n - (i + t) - 1))) := by
  induction k with
  | zero => intro i r; rfl
  | succ k ih =>
    intro i r
    simp only [outerLoopCount, outerLoop, innerLoopCount_eq]
    cases innerLoop 0 (n - i - 1) r with
    | none => rfl
    | some r1 =>
      simp only [Option.map_some', Option.some_bind, ih (i + 1) r1]
      cases outerLoop n (i + 1) k r1 with
      | none => rfl
      | some r2 =>
        simp only [Option.map_some', Option.some_bind, List.range_succ_eq_map, List.map_cons,
          List.map_map, Nat.add_zero]
        congr 3
        apply List.map_congr_left
        intro t _
        simp only [Function.comp, Nat.succ_eq_add_one]
        omega

theorem passCounts_sum (n : Nat) :
    2 * ((List.range n).map (fun i => n - i - 1)).sum = n * (n - 1) := by
  induction n with
  | zero => rfl
  | succ n ih =>
    have hmap : (List.range (n + 1)).map (fun i => n + 1 - i - 1) =
        n :: (List.range n).map (fun i => n - i - 1) := by
      rw [List.range_succ_eq_map, List.map_cons, List.map_map]
      congr 1
      apply List.map_congr_left
      intro t _
      simp only [Function.comp, Nat.succ_eq_add_one]
      omega
    rw [hmap, List.sum_cons, Nat.mul_add, ih]
    cases n with
    | zero => rfl
    | succ m =>
      simp only [Nat.add_sub_cancel]
      ring

/-! ## Merge sort on tagged elements: lemmas -/

theorem eval_MergeSortT_duplicates :
    MergeSortT (tagPositions [3, 1, 2, 1]) = some [(1, 1), (1, 3), (2, 2), (3, 0)] := by
  decide

/-- The loop of `merge` on tagged elements with enough iterations allowed. -/
theorem mergeLoopT_spec (left right : List Tagged) (fuel : Nat) :
    ∀ (i j : Nat) (result : List Tagged),
      (left.length - i) + (right.length - j) ≤ fuel →
      ∃ i2 j2 result2, mergeLoopT left right fuel i j result = some (i2, j2, result2) ∧
        i2 ≤ max i left.length ∧ j2 ≤ max j right.length ∧
        result2 ++ left.drop i2 ++ right.drop j2 =
          result ++ List.merge (left.drop i) (right.drop j) leT := by
  induction fuel with
  | zero =>
    intro i j result hf
    have hc : ¬ (i < left.length ∧ j < right.length) := by omega
    refine ⟨i, j, result, by simp [mergeLoopT, hc], le_max_left _ _, le_max_left _ _, ?_⟩
    have : left.drop i = [] := List.drop_eq_nil_of_le (by omega)
    have : right.drop j = [] := List.drop_eq_nil_of_le (by omega)
    simp [*]
  | succ fuel ih =>
    intro i j result hf
    by_cases hc : i < left.length ∧ j < right.length
    · obtain ⟨hi, hj⟩ := hc
      have ha : left[i]? = some left[i] := List.getElem?_eq_getElem hi
      have hb : right[j]? = some right[j] := List.getElem?_eq_getElem hj
      have hdl : left.drop i = left[i] :: left.drop (i + 1) := List.drop_eq_getElem_cons hi
      have hdr : right.drop j = right[j] :: right.drop (j + 1) :=
        List.drop_eq_getElem_cons hj
      by_cases hle : (left[i]).1 ≤ (right[j]).1
      · obtain ⟨i2, j2, r2, h1, h2, h3, h4⟩ := ih (i + 1) j (result ++ [left[i]]) (by omega)
        refine ⟨i2, j2, r2, ?_, by omega, h3, ?_⟩
        · simp only [mergeLoopT, hi, hj, and_self, if_true, ha, hb]
          simp [hle, h1]
        · rw [h4, hdl, hdr, List.cons_merge_cons_pos]
          · simp [← hdr]
          · simp [leT, hle]
      · obtain ⟨i2, j2, r2, h1, h2, h3, h4⟩ := ih i (j + 1) (result ++ [right[j]]) (by omega)
        refine ⟨i2, j2, r2, ?_, h2, by omega, ?_⟩
        · simp only [mergeLoopT, hi, hj, and_self, if_true, ha, hb]
          simp [hle, h1]
        · rw [h4, hdl, hdr, List.cons_merge_cons_neg]
          · simp [← hdl]
          · simp [leT, hle]
    · refine ⟨i, j, result, by simp [mergeLoopT, hc], le_max_left _ _, le_max_left _ _, ?_⟩
      rcases Nat.lt_or_ge i left.length with hi | hi
      · have hj : right.length ≤ j := by omega
        simp [List.drop_eq_nil_of_le hj]
      · simp [List.drop_eq_nil_of_le hi]

theorem mergeT_eq (left right : List Tagged) :
    mergeT left right = some (List.merge left right leT) := by
  obtain ⟨i2, j2, r2, h1, h2, h3, h4⟩ :=
    mergeLoopT_spec left right (left.length + right.length) 0 0 [] (by omega)
  have hi : i2 ≤ left.length := by simpa using h2
  have hj : j2 ≤ right.length := by simpa using h3
  simp only [mergeT, h1, hi, hj, if_true, Option.some_bind]
  simpa using h4

/-- In the two-way merge of two lists sorted by value, the elements of a given value
are those of the left list followed by those of the right list. -/
theorem withValue_listMerge (v : Int) : ∀ (l r : List Tagged),
    l.Pairwise (fun a b => leT a b = true) → r.Pairwise (fun a b => leT a b = true) →
    withValue v (List.merge l r leT) = withValue v l ++ withValue v r := by
  intro l
  induction l with
  | nil =>
    intro r _ _
    simp [withValue]
  | cons a l ihl =>
    intro r
    induction r with
    | nil =>
      intro _ _
      simp [withValue]
    | cons b r ihr =>
      intro hl hr
      by_cases hab : leT a b = true
      · rw [List.cons_merge_cons_pos leT l r hab]
        have ih := ihl (b :: r) (List.Pairwise.of_cons hl) hr
        unfold withValue at ih ⊢
        rw [List.filter_cons, ih]
        by_cases hav : a.1 = v <;> simp [List.filter_cons, hav]
      · rw [List.cons_merge_cons_neg leT l r hab]
        have ih := ihr hl (List.Pairwise.of_cons hr)
        have hlt : b.1 < a.1 := by
          simp only [leT, decide_eq_true_eq] at hab
          omega
        unfold withValue at ih ⊢
        rw [List.filter_cons, ih]
        by_cases hbv : b.1 = v
        · have hnil : List.filter (fun x : Tagged => decide (x.1 = v)) (a :: l) = [] := by
            rw [List.filter_eq_nil_iff]
            intro x hx
            have hax : a.1 ≤ x.1 := by
              rcases List.mem_cons.mp hx with rfl | hxl
              · exact Int.le_refl _
              · have := List.rel_of_pairwise_cons hl hxl
                simpa [leT] using this
            simp only [decide_eq_true_eq]
            omega
          rw [hnil]
          simp [List.filter_cons, hbv]
        · simp [List.filter_cons, hbv]

/-- With a recursion bound of at least the length, `MergeSort` on tagged elements returns
a permutation of its input that is sorted by value and in which the elements of each
value are in the order of the input. -/
theorem MergeSortFuelT_spec (fuel : Nat) : ∀ (arr : List Tagged), arr.length ≤ fuel →
    ∃ out, MergeSortFuelT fuel arr = some out ∧ List.Perm out arr ∧
      out.Pairwise (fun a b => leT a b = true) ∧
      ∀ v, withValue v out = withValue v arr := by
  have hshort : ∀ (arr : List Tagged), arr.length ≤ 1 →
      arr.Pairwise (fun a b => leT a b = true) := by
    intro arr h
    match arr, h with
    | [], _ => exact List.Pairwise.nil
    | [a], _ => exact List.pairwise_singleton _ a
    | _ :: _ :: _, h => simp at h
  induction fuel with
  | zero =>
    intro arr h
    have h1 : arr.length ≤ 1 := by omega
    exact ⟨arr, by simp [MergeSortFuelT, h1], List.Perm.refl _, hshort arr h1, fun _ => rfl⟩
  | succ fuel ih =>
    intro arr h
    by_cases h1 : arr.length ≤ 1
    · exact ⟨arr, by simp [MergeSortFuelT, h1], List.Perm.refl _, hshort arr h1, fun _ => rfl⟩
    · have hmid : arr.length / 2 ≤ arr.length := Nat.div_le_self _ _
      obtain ⟨left, hl, hlp, hls, hlv⟩ := ih (arr.take (arr.length / 2))
        (by rw [List.length_take]; omega)
      obtain ⟨right, hr, hrp, hrs, hrv⟩ := ih (arr.drop (arr.length / 2))
        (by rw [List.length_drop]; omega)
      refine ⟨List.merge left right leT, ?_, ?_, ?_, ?_⟩
      · simp only [MergeSortFuelT, h1, if_false, hmid, if_true, Option.some_bind, hl, hr,
          mergeT_eq]
      · have hcat : List.Perm (left ++ right) arr := by
          have := hlp.append hrp
          rwa [List.take_append_drop] at this
        exact (List.merge_perm_append leT).trans hcat
      · refine List.sorted_merge ?_ ?_ left right hls hrs
        · intro a b c hab hbc
          simp only [leT, decide_eq_true_eq] at *
          omega
        · intro a b
          simp only [leT, Bool.or_eq_true, decide_eq_true_eq]
          omega
      · intro v
        rw [withValue_listMerge v left right hls hrs, hlv v, hrv v]
        unfold withValue
        rw [← List.filter_append, List.take_append_drop]

theorem tagPositions_map_fst (S : List Int) : (tagPositions S).map Prod.fst = S := by
  unfold tagPositions
  exact List.map_fst_zip S _ (by simp)

/-- The tags of the input are increasing. -/
theorem tagPositions_pairwise (S : List Int) :
    (tagPositions S).Pairwise (fun a b => a.2 < b.2) := by
  have h : ((tagPositions S).map Prod.snd).Pairwise (fun a b : Nat => a < b) := by
    unfold tagPositions
    rw [List.map_snd_zip _ _ (by simp)]
    exact List.pairwise_lt_range _
  exact List.pairwise_map.mp h

/-- If the elements of each value are in the order of the input, two elements of the
same value are in the order of their tags. -/
theorem pairwise_of_withValue (S : List Int) (out : List Tagged)
    (h : ∀ v, withValue v out = withValue v (tagPositions S)) :
    out.Pairwise (fun x y => x.1 = y.1 → x.2 < y.2) := by
  rw [List.pairwise_iff_forall_sublist]
  intro x y hsub hxy
  have h1 : withValue x.1 [x, y] = [x, y] := by
    simp [withValue, hxy]
  have h2 : List.Sublist [x, y] (tagPositions S) := by
    have := List.Sublist.filter (fun t : Tagged => decide (t.1 = x.1)) hsub
    have h3 : List.Sublist (withValue x.1 [x, y]) (withValue x.1 out) := this
    rw [h1, h x.1] at h3
    exact h3.trans (List.filter_sublist _)
  exact List.pairwise_iff_forall_sublist.mp (tagPositions_pairwise S) h2

/-- Forgetting the tags commutes with `merge`: on tagged elements `merge` does what
`merge` does on the values. -/
theorem mergeT_erase (left right : List Tagged) :
    (mergeT left right).map (List.map Prod.fst) =
      merge (left.map Prod.fst) (right.map Prod.fst) := by
  rw [mergeT_eq, merge_eq, Option.map_some']
  congr 1
  exact List.map_merge (fun a _ b _ => rfl)

/-- Forgetting the tags of the result of `MergeSort` on the tagged input gives the result
of `MergeSort` on the input. -/
theorem MergeSortT_erase (S : List Int) (out : List Tagged)
    (hp : List.Perm out (tagPositions S)) (hs : out.Pairwise (fun a b => leT a b = true)) :
    MergeSort S = some (out.map Prod.fst) := by
  obtain ⟨m, hm, hmp, hms⟩ := MergeSort_spec S
  have h1 : List.Perm (out.map Prod.fst) S := by
    have := hp.map Prod.fst
    rwa [tagPositions_map_fst] at this
  have h2 : List.Sorted (fun a b : Int => a ≤ b) (out.map Prod.fst) := by
    unfold List.Sorted
    rw [List.pairwise_map]
    exact hs.imp (fun h => by simpa [leT] using h)
  rw [hm, eq_of_sorted_perm _ m (h1.trans hmp.symm) h2 hms]

/-! ## The configuration and the harness: lemmas -/

theorem eval_parseSizes : parseSizes "100, 2000,x,,30 ".toList = [100, 2000, 30] := by
  decide

theorem eval_parseSizes_negative : parseSizes "-5".toList = [-5] := by
  decide

/-- The characters of a part of a text are characters of the text. -/
theorem mem_of_mem_splitOn (sep : Char) : ∀ (s part : Text), part ∈ splitOn sep s →
    ∀ c ∈ part, c ∈ s := by
  intro s
  induction s with
  | nil =>
    intro part hp c hc
    simp only [splitOn, List.mem_singleton] at hp
    subst hp
    exact hc
  | cons d cs ih =>
    intro part hp c hc
    simp only [splitOn] at hp
    by_cases hd : d = sep
    · rw [if_pos hd] at hp
      rcases List.mem_cons.mp hp with rfl | hp2
      · exact absurd hc (List.not_mem_nil c)
      · exact List.mem_cons_of_mem _ (ih part hp2 c hc)
    · rw [if_neg hd] at hp
      cases hsp : splitOn sep cs with
      | nil =>
        rw [hsp] at hp
        simp only [List.mem_singleton] at hp
        subst hp
        simp only [List.mem_singleton] at hc
        subst hc
        exact List.mem_cons_self _ _
      | cons q qs =>
        rw [hsp] at hp
        rcases List.mem_cons.mp hp with rfl | hp2
        · rcases List.mem_cons.mp hc with rfl | hc2
          · exact List.mem_cons_self _ _
          · exact List.mem_cons_of_mem _ (ih q (by rw [hsp]; exact List.mem_cons_self _ _) c hc2)
        · exact List.mem_cons_of_mem _
            (ih part (by rw [hsp]; exact List.mem_cons_of_mem _ hp2) c hc)

/-- The characters of a trimmed text are characters of the text. -/
theorem mem_of_mem_TrimSpace (s : Text) (c : Char) (h : c ∈ TrimSpace s) : c ∈ s := by
  unfold TrimSpace at h
  rw [List.mem_reverse] at h
  have h2 := (List.dropWhile_sublist isSpace).subset h
  rw [List.mem_reverse] at h2
  exact (List.dropWhile_sublist isSpace).subset h2

theorem signOf_fst (s : Text) (hs : '-' ∉ s) : (signOf s).1 = false := by
  unfold signOf
  revert hs
  split
  · intro hm
    exact absurd (List.mem_cons_self _ _) hm
  · intro _
    rfl
  · intro _
    rfl

/-- A number whose text has no minus sign is not negative. -/
theorem Atoi_nonneg (s : Text) (v : Int) (hs : '-' ∉ s) (h : Atoi s = some v) : 0 ≤ v := by
  have hsign := signOf_fst s hs
  by_cases he : (signOf s).2 = []
  · simp [Atoi, he] at h
  · simp only [Atoi, he, if_false, hsign] at h
    obtain ⟨n, _, hn⟩ := Option.bind_eq_some.mp h
    simp only [Bool.false_eq_true, if_false] at hn
    split at hn
    · injection hn with hn
      omega
    · exact absurd hn (by simp)

/-- The elements of the list returned by the loop of `parseSizes` are those it started
with and the values of the parts that are numbers. -/
theorem mem_parseSizesLoop (v : Int) : ∀ (parts : List Text) (sizes : List Int),
    v ∈ parseSizesLoop parts sizes ↔
      v ∈ sizes ∨ ∃ part ∈ parts, Atoi (TrimSpace part) = some v := by
  intro parts
  induction parts with
  | nil =>
    intro sizes
    simp [parseSizesLoop]
  | cons part rest ih =>
    intro sizes
    simp only [parseSizesLoop]
    cases hpart : Atoi (TrimSpace part) with
    | none =>
      simp only [ih sizes, List.mem_cons, exists_eq_or_imp, hpart]
      simp
    | some size =>
      rw [ih (sizes ++ [size])]
      constructor
      · rintro (h | ⟨p, hp, hv⟩)
        · rcases List.mem_append.mp h with h1 | h1
          · exact Or.inl h1
          · have hvs : v = size := by simpa using h1
            exact Or.inr ⟨part, List.mem_cons_self _ _, by rw [hpart, hvs]⟩
        · exact Or.inr ⟨p, List.mem_cons_of_mem _ hp, hv⟩
      · rintro (h | ⟨p, hp, hv⟩)
        · exact Or.inl (List.mem_append.mpr (Or.inl h))
        · rcases List.mem_cons.mp hp with rfl | hp2
          · rw [hpart] at hv
            injection hv with hv
            exact Or.inl (List.mem_append.mpr (Or.inr (by simp [hv])))
          · exact Or.inr ⟨p, hp2, hv⟩

/-- The loop of `parseSizes` appends the values of the trimmed parts that are numbers, in
the order of the parts. -/
theorem parseSizesLoop_eq : ∀ (parts : List Text) (sizes : List Int),
    parseSizesLoop parts sizes =
      sizes ++ parts.filterMap (fun part => Atoi (TrimSpace part)) := by
  intro parts
  induction parts with
  | nil =>
    intro sizes
    simp [parseSizesLoop]
  | cons part rest ih =>
    intro sizes
    simp only [parseSizesLoop]
    cases hpart : Atoi (TrimSpace part) with
    | none =>
      simp only [ih sizes, List.filterMap_cons, hpart]
    | some size =>
      simp only [ih (sizes ++ [size]), List.filterMap_cons, hpart, List.append_assoc,
        List.singleton_append]

/-- The list returned by `parseSizes`: the values of the trimmed parts that are numbers, in
the order of the parts. -/
theorem parseSizes_eq (text : Text) :
    parseSizes text = (splitOn ',' text).filterMap (fun part => Atoi (TrimSpace part)) := by
  unfold parseSizes
  rw [parseSizesLoop_eq, List.nil_append]

/-- The sizes of `LoadConfigFromEnv`: the list parsed from `ARRAY_SIZES` when it is not
empty, the default sizes otherwise. -/
theorem LoadConfigFromEnv_Sizes (getenv : String → Text) :
    (LoadConfigFromEnv getenv).Sizes =
      if parseSizes (getenv "ARRAY_SIZES") = [] then [100, 1000, 10000, 50000, 100000]
      else parseSizes (getenv "ARRAY_SIZES") := by
  have hnil : parseSizes [] = [] := by decide
  unfold LoadConfigFromEnv DefaultConfig
  by_cases hport : getenv "PORT" = []
  · by_cases henv : getenv "ARRAY_SIZES" = []
    · simp [hport, henv, hnil]
    · by_cases hp : parseSizes (getenv "ARRAY_SIZES") = []
      · simp [hport, henv, hp]
      · have hlen : (parseSizes (getenv "ARRAY_SIZES")).length > 0 :=
          List.length_pos.mpr hp
        simp [hport, henv, hp, hlen]
  · by_cases henv : getenv "ARRAY_SIZES" = []
    · simp [hport, henv, hnil]
    · by_cases hp : parseSizes (getenv "ARRAY_SIZES") = []
      · simp [hport, henv, hp]
      · have hlen : (parseSizes (getenv "ARRAY_SIZES")).length > 0 :=
          List.length_pos.mpr hp
        simp [hport, henv, hp, hlen]

/-- The list returned by `parseSizes` holds the values of the trimmed parts that are
numbers. -/
theorem mem_parseSizes (text : Text) (v : Int) :
    v ∈ parseSizes text ↔ ∃ part ∈ splitOn ',' text, Atoi (TrimSpace part) = some v := by
  unfold parseSizes
  rw [mem_parseSizesLoop]
  simp

/-- A text without minus sign gives no negative size. -/
theorem parseSizes_nonneg (text : Text) (hs : '-' ∉ text) :
    ∀ v ∈ parseSizes text, (0 : Int) ≤ v := by
  intro v hv
  obtain ⟨part, hpart, hatoi⟩ := (mem_parseSizes text v).mp hv
  refine Atoi_nonneg (TrimSpace part) v ?_ hatoi
  intro hmem
  exact hs (mem_of_mem_splitOn ',' text part hpart _ (mem_of_mem_TrimSpace part _ hmem))

/-- For a length `n` that can be allocated, `GenerateRandomArray n` returns an array of
length `n` after `n` more calls of `rand.Intn`. -/
theorem GenerateRandomArray_spec (avail : Nat) (src : RandSource) (k : Nat) (n : Int)
    (hn : 0 ≤ n) (hmax : n ≤ (maxSliceLen : Int)) (hav : n ≤ (avail : Int)) :
    ∃ arr, GenerateRandomArray avail src k n = some (arr, k + n.toNat) ∧
      (arr.length : Int) = n := by
  obtain ⟨out, h1, h2, _, _⟩ :=
    fillLoop_spec (fun i => Intn src (k + i) 10000) n.toNat 0 (List.replicate n.toNat 0)
      (by simp)
  have hlen : out.length = n.toNat := by simpa using h2
  refine ⟨out, ?_, by rw [hlen]; exact Int.toNat_of_nonneg hn⟩
  simp only [GenerateRandomArray, makeSlice_eq_some avail n hn hmax hav, Option.some_bind,
    List.length_replicate, h1]

/-- The loop of `runBenchmarks` over sizes that can be allocated, with a sort function
that returns: the state of the sort function is changed as by one call for each size, in
order, on an array of that length, and one observation and one increment are recorded for
each size. -/
theorem runBenchmarksLoop_spec {σ : Type} (avail : Nat) (src : RandSource)
    (clock : Nat → Int) (cfg : Config) (sortFunc : SortFunc σ)
    (hs : ∀ a st, ∃ out st2, sortFunc a st = some (out, st2)) :
    ∀ (sizes : List Int) (w : World) (st : σ),
    (∀ size ∈ sizes, (0 : Int) ≤ size ∧ size ≤ (maxSliceLen : Int) ∧ size ≤ (avail : Int)) →
    ∃ w2 st2 arrs, runBenchmarksLoop avail src clock cfg sortFunc sizes w st = some (w2, st2) ∧
      arrs.map (fun a => (a.length : Int)) = sizes ∧
      callsInOrder sortFunc arrs st = some st2 ∧
      w2.sortDuration.map (fun x => (x.algorithm, x.size)) =
        w.sortDuration.map (fun x => (x.algorithm, x.size)) ++
          sizes.map (fun size => (cfg.AlgorithmName, Nat.toDigits 10 size.toNat)) ∧
      w2.sortCompleted =
        w.sortCompleted ++
          sizes.map (fun size => (cfg.AlgorithmName, Nat.toDigits 10 size.toNat)) := by
  intro sizes
  induction sizes with
  | nil =>
    intro w st _
    exact ⟨w, st, [], rfl, rfl, rfl, by simp, by simp⟩
  | cons size rest ih =>
    intro w st hpos
    obtain ⟨hsize, hmax, hav⟩ := hpos size (List.mem_cons_self _ _)
    obtain ⟨arr, harr, hlen⟩ := GenerateRandomArray_spec avail src w.draws size hsize hmax hav
    obtain ⟨out, st1, hout⟩ := hs arr st
    have hlen2 : arr.length = size.toNat := by omega
    obtain ⟨w2, st2, arrs, h1, h3, hcalls, h4, h5⟩ :=
      ih ⟨w.draws + size.toNat, w.clockReads + 2,
          w.sortDuration ++
            [⟨cfg.AlgorithmName, Nat.toDigits 10 arr.length,
              clock (w.clockReads + 1) - clock w.clockReads⟩],
          w.sortCompleted ++ [(cfg.AlgorithmName, Nat.toDigits 10 arr.length)]⟩ st1
        (fun x hx => hpos x (List.mem_cons_of_mem _ hx))
    refine ⟨w2, st2, arr :: arrs, ?_, ?_, ?_, ?_, ?_⟩
    · simp only [runBenchmarksLoop, harr, Option.some_bind, MeasureSort, hout]
      exact h1
    · simp [h3, hlen]
    · simp only [callsInOrder, hout, Option.some_bind]
      exact hcalls
    · rw [h4, hlen2]
      simp
    · rw [h5, hlen2]
      simp

/-- Calling a logged sort function that returns once on each of the arrays appends the
arrays to the log. -/
theorem callsInOrder_logged (f : List Int → Option (List Int))
    (hf : ∀ a, ∃ out, f a = some out) : ∀ (arrs log : List (List Int)),
    callsInOrder (logged f) arrs log = some (log ++ arrs) := by
  intro arrs
  induction arrs with
  | nil =>
    intro log
    simp [callsInOrder]
  | cons arr rest ih =>
    intro log
    obtain ⟨out, hout⟩ := hf arr
    simp only [callsInOrder, logged, hout, Option.some_bind, ih (log ++ [arr])]
    simp

/-! ## The properties of the specification -/

/-- C1: for every integer sequence `S`, `BubbleSort S` returns a sequence that is
non-decreasing: it is sorted, and every adjacent pair satisfies `out[k] ≤ out[k+1]`. -/
theorem C1_BubbleSort_nondecreasing (S : List Int) :
    ∃ out, BubbleSort S = some out ∧ List.Sorted (fun a b : Int => a ≤ b) out ∧
      ∀ (k : Nat) (a b : Int), out[k]? = some a → out[k + 1]? = some b → a ≤ b := by
  obtain ⟨out, h, _, ho⟩ := BubbleSort_spec S
  exact ⟨out, h, ho, adjacent_of_sorted out ho⟩

/-- C2: for every integer sequence `S`, `BubbleSort S` returns a permutation of `S`: the
same length and the same number of occurrences of every value; `[3,1,2,1]` gives
`[1,1,2,3]`. -/
theorem C2_BubbleSort_perm (S : List Int) :
    (∃ out, BubbleSort S = some out ∧ List.Perm out S ∧ out.length = S.length ∧
      ∀ v : Int, out.count v = S.count v) ∧
    BubbleSort [3, 1, 2, 1] = some [1, 1, 2, 3] := by
  obtain ⟨out, h, hp, _⟩ := BubbleSort_spec S
  exact ⟨⟨out, h, hp, hp.length_eq, fun v => hp.count_eq v⟩, by decide⟩

/-- C3: for every integer sequence `S`, `MergeSort S` returns a sequence that is
non-decreasing: it is sorted, and every adjacent pair satisfies `out[k] ≤ out[k+1]`. -/
theorem C3_MergeSort_nondecreasing (S : List Int) :
    ∃ out, MergeSort S = some out ∧ List.Sorted (fun a b : Int => a ≤ b) out ∧
      ∀ (k : Nat) (a b : Int), out[k]? = some a → out[k + 1]? = some b → a ≤ b := by
  obtain ⟨out, h, _, ho⟩ := MergeSort_spec S
  exact ⟨out, h, ho, adjacent_of_sorted out ho⟩

/-- C4: for every integer sequence `S`, `MergeSort S` returns a permutation of `S`: the
same length and the same number of occurrences of every value; `[3,1,2,1]` gives
`[1,1,2,3]`. -/
theorem C4_MergeSort_perm (S : List Int) :
    (∃ out, MergeSort S = some out ∧ List.Perm out S ∧ out.length = S.length ∧
      ∀ v : Int, out.count v = S.count v) ∧
    MergeSort [3, 1, 2, 1] = some [1, 1, 2, 3] := by
  obtain ⟨out, h, hp, _⟩ := MergeSort_spec S
  exact ⟨⟨out, h, hp, hp.length_eq, fun v => hp.count_eq v⟩, by decide⟩

/-- C5: for every memory `m` and every slice `arr` of the caller lying in it, each of
`BubbleSort` and `MergeSort` returns, and in the memory after the call every cell that
existed before the call holds what it held before: the contents of `arr` are unchanged,
element for element. The slice returned holds the sorted sequence. -/
theorem C5_sorts_leave_caller_storage (m : Mem) (arr : Slice)
    (hin : arr.base + arr.len ≤ m.length) (hcap : arr.len ≤ arr.cap) :
    (∃ out m2, BubbleSortM m arr = some (out, m2) ∧ m2.take m.length = m ∧
      contents m2 arr = contents m arr ∧ (∀ i, loadAt m2 arr i = loadAt m arr i) ∧
      BubbleSort (contents m arr) = some (contents m2 out)) ∧
    (∃ out m2, MergeSortM m arr = some (out, m2) ∧ m2.take m.length = m ∧
      contents m2 arr = contents m arr ∧ (∀ i, loadAt m2 arr i = loadAt m arr i) ∧
      MergeSort (contents m arr) = some (contents m2 out)) := by
  have hload : ∀ (ext : List Int) (i : Nat), loadAt (m ++ ext) arr i = loadAt m arr i := by
    intro ext i
    rw [loadAt_append m ext arr i hin]
    have := loadAt_append m [] arr i hin
    rw [List.append_nil] at this
    exact this.symm
  constructor
  · obtain ⟨l, hl, _, _⟩ := BubbleSort_spec (contents m arr)
    have hlen : l.length = arr.len := by
      obtain ⟨_, h1, hp, _⟩ := BubbleSort_spec (contents m arr)
      rw [hl] at h1
      injection h1 with h1
      rw [h1, hp.length_eq, length_contents m arr hin]
    refine ⟨⟨m.length, arr.len, arr.len⟩, m ++ l, ?_, ?_, contents_append m l arr hin,
      hload l, ?_⟩
    · rw [BubbleSortM_eq m arr hin, hl]
      rfl
    · simp
    · rw [hl, ← hlen, contents_fresh]
  · obtain ⟨l, hl, _, _⟩ := MergeSort_spec (contents m arr)
    have hfuel : MergeSortFuel arr.len (contents m arr) = some l := by
      have := hl
      unfold MergeSort at this
      rwa [length_contents m arr hin] at this
    obtain ⟨s, ext, h1, _, h3⟩ := MergeSortFuelM_spec arr.len m arr l hin hcap hfuel
    exact ⟨s, m ++ ext, h1, by simp, contents_append m ext arr hin, hload ext,
      by rw [hl, h3]⟩

/-- C5 for a memory of five cells whose cells 1, 2, 3 are the caller's slice `[3,1,2]`. -/
theorem C5_sorts_leave_caller_storage_witness :
    ((⟨1, 3, 3⟩ : Slice).base + (⟨1, 3, 3⟩ : Slice).len ≤ ([7, 3, 1, 2, 9] : Mem).length ∧
      (⟨1, 3, 3⟩ : Slice).len ≤ (⟨1, 3, 3⟩ : Slice).cap) ∧
    (∃ out m2, BubbleSortM [7, 3, 1, 2, 9] ⟨1, 3, 3⟩ = some (out, m2) ∧
      m2.take ([7, 3, 1, 2, 9] : Mem).length = [7, 3, 1, 2, 9] ∧
      contents m2 ⟨1, 3, 3⟩ = contents [7, 3, 1, 2, 9] ⟨1, 3, 3⟩ ∧
      (∀ i, loadAt m2 ⟨1, 3, 3⟩ i = loadAt [7, 3, 1, 2, 9] ⟨1, 3, 3⟩ i) ∧
      BubbleSort (contents [7, 3, 1, 2, 9] ⟨1, 3, 3⟩) = some (contents m2 out)) ∧
    (∃ out m2, MergeSortM [7, 3, 1, 2, 9] ⟨1, 3, 3⟩ = some (out, m2) ∧
      m2.take ([7, 3, 1, 2, 9] : Mem).length = [7, 3, 1, 2, 9] ∧
      contents m2 ⟨1, 3, 3⟩ = contents [7, 3, 1, 2, 9] ⟨1, 3, 3⟩ ∧
      (∀ i, loadAt m2 ⟨1, 3, 3⟩ i = loadAt [7, 3, 1, 2, 9] ⟨1, 3, 3⟩ i) ∧
      MergeSort (contents [7, 3, 1, 2, 9] ⟨1, 3, 3⟩) = some (contents m2 out)) :=
  ⟨⟨by decide, by decide⟩,
    C5_sorts_leave_caller_storage [7, 3, 1, 2, 9] ⟨1, 3, 3⟩ (by decide) (by decide)⟩

/-- C6: sorting is idempotent: each sort returns a sequence on every input, and sorting
that sequence again returns it unchanged, so sorting twice is the same as sorting once. -/
theorem C6_sort_idempotent (S : List Int) :
    (∃ out, BubbleSort S = some out ∧ BubbleSort out = some out) ∧
    (∃ out, MergeSort S = some out ∧ MergeSort out = some out) ∧
    (BubbleSort S).bind BubbleSort = BubbleSort S ∧
    (MergeSort S).bind MergeSort = MergeSort S := by
  obtain ⟨b, hb, _, hbs⟩ := BubbleSort_spec S
  obtain ⟨m, hm, _, hms⟩ := MergeSort_spec S
  have hb2 := BubbleSort_of_sorted b hbs
  have hm2 := MergeSort_of_sorted m hms
  refine ⟨⟨b, hb, hb2⟩, ⟨m, hm, hm2⟩, ?_, ?_⟩
  · rw [hb, Option.some_bind, hb2]
  · rw [hm, Option.some_bind, hm2]

/-- C7: both sorts return the empty sequence for the empty sequence and `[x]` for every
single-element sequence `[x]`. -/
theorem C7_sort_empty_single (x : Int) :
    BubbleSort [] = some [] ∧ BubbleSort [x] = some [x] ∧
    MergeSort [] = some [] ∧ MergeSort [x] = some [x] :=
  ⟨rfl, rfl, rfl, rfl⟩

/-- C8: a non-decreasing sequence (every adjacent pair in order) is a fixed point of both
sorts. -/
theorem C8_sorted_fixed_point (S : List Int)
    (hs : ∀ (k : Nat) (a b : Int), S[k]? = some a → S[k + 1]? = some b → a ≤ b) :
    BubbleSort S = some S ∧ MergeSort S = some S :=
  ⟨BubbleSort_of_sorted S (sorted_of_adjacent S hs),
    MergeSort_of_sorted S (sorted_of_adjacent S hs)⟩

/-- C8 at the input of the tests' "sorted" case, `[1,2,3]`. -/
theorem C8_sorted_fixed_point_witness :
    (∀ (k : Nat) (a b : Int), ([1, 2, 3] : List Int)[k]? = some a →
        ([1, 2, 3] : List Int)[k + 1]? = some b → a ≤ b) ∧
      BubbleSort [1, 2, 3] = some [1, 2, 3] ∧ MergeSort [1, 2, 3] = some [1, 2, 3] :=
  ⟨adjacent_of_sorted [1, 2, 3] (by decide),
    C8_sorted_fixed_point [1, 2, 3] (adjacent_of_sorted [1, 2, 3] (by decide))⟩

/-- C9, as stated, fails: for `n = 2 ^ 62`, which is `≥ 0`, the allocation
`make([]int, n)` of `GenerateSortedArray` fails, whatever memory is free, and no sequence is
returned. -/
theorem C9_too_large_fails :
    (0 : Int) ≤ 4611686018427387904 ∧
    GenerateSortedArray 18446744073709551616 4611686018427387904 = none := by
  refine ⟨by decide, ?_⟩
  unfold GenerateSortedArray
  rw [makeSlice_eq_none _ _ (Or.inr (Or.inl (by unfold maxSliceLen; norm_num)))]
  rfl

/-- C9, amended: for every `n ≥ 0` that `make([]int, n)` can allocate (at most
`maxSliceLen` and at most what the free memory holds), `GenerateSortedArray n` returns
exactly `[0, 1, ..., n-1]`: its length is `n` and its element at index `i` is `i`; for a
larger `n` the allocation fails and nothing is returned. -/
theorem C9_GenerateSortedArray (avail : Nat) (n : Int) (hn : 0 ≤ n) :
    (n ≤ (maxSliceLen : Int) → n ≤ (avail : Int) →
      ∃ out, GenerateSortedArray avail n = some out ∧
        out = (List.range n.toNat).map (fun i : Nat => (i : Int)) ∧
        (out.length : Int) = n ∧
        ∀ i : Nat, (i : Int) < n → out[i]? = some (i : Int)) ∧
    ((maxSliceLen : Int) < n ∨ (avail : Int) < n → GenerateSortedArray avail n = none) := by
  constructor
  · intro hmax hav
    refine ⟨_, generate_eq _ avail n hn hmax hav, rfl, ?_, ?_⟩
    · simp [Int.toNat_of_nonneg hn]
    · intro i hi
      have : i < n.toNat := by omega
      simp [this]
  · intro h
    unfold GenerateSortedArray
    rw [makeSlice_eq_none avail n (Or.inr h)]
    rfl

/-- C9 at `n = 4` with free memory for 10 elements. -/
theorem C9_GenerateSortedArray_witness :
    (0 : Int) ≤ 4 ∧ (4 : Int) ≤ (maxSliceLen : Int) ∧ (4 : Int) ≤ ((10 : Nat) : Int) ∧
    ∃ out, GenerateSortedArray 10 4 = some out ∧
      out = (List.range (4 : Int).toNat).map (fun i : Nat => (i : Int)) ∧
      (out.length : Int) = 4 ∧
      ∀ i : Nat, (i : Int) < 4 → out[i]? = some (i : Int) :=
  ⟨by decide, by unfold maxSliceLen; norm_num, by decide,
    (C9_GenerateSortedArray 10 4 (by decide)).1 (by unfold maxSliceLen; norm_num)
      (by decide)⟩

/-- C10, as stated, fails: for `n = 2 ^ 62`, which is `≥ 0`, the allocation
`make([]int, n)` of `GenerateReversedArray` fails, whatever memory is free, and no sequence
is returned. -/
theorem C10_too_large_fails :
    (0 : Int) ≤ 4611686018427387904 ∧
    GenerateReversedArray 18446744073709551616 4611686018427387904 = none := by
  refine ⟨by decide, ?_⟩
  unfold GenerateReversedArray
  rw [makeSlice_eq_none _ _ (Or.inr (Or.inl (by unfold maxSliceLen; norm_num)))]
  rfl

/-- C10, amended: for every `n ≥ 0` that `make([]int, n)` can allocate (at most
`maxSliceLen` and at most what the free memory holds), `GenerateReversedArray n` returns
exactly `[n, n-1, ..., 1]`: its length is `n`, its element at index `i` is `n - i`, and
when it is not empty it starts with `n` and ends with `1`; for a larger `n` the allocation
fails and nothing is returned. -/
theorem C10_GenerateReversedArray (avail : Nat) (n : Int) (hn : 0 ≤ n) :
    (n ≤ (maxSliceLen : Int) → n ≤ (avail : Int) →
      ∃ out, GenerateReversedArray avail n = some out ∧
        out = (List.range n.toNat).map (fun i : Nat => n - (i : Int)) ∧
        (out.length : Int) = n ∧
        (∀ i : Nat, (i : Int) < n → out[i]? = some (n - (i : Int))) ∧
        (0 < n → out.head? = some n ∧ out.getLast? = some 1)) ∧
    ((maxSliceLen : Int) < n ∨ (avail : Int) < n → GenerateReversedArray avail n = none) := by
  constructor
  · intro hmax hav
    refine ⟨_, generate_eq _ avail n hn hmax hav, rfl, ?_, ?_, ?_⟩
    · simp [Int.toNat_of_nonneg hn]
    · intro i hi
      have : i < n.toNat := by omega
      simp [this]
    · intro hpos
      obtain ⟨m, hm⟩ : ∃ m : Nat, n.toNat = m + 1 := ⟨n.toNat - 1, by omega⟩
      have hn2 : n = (m : Int) + 1 := by omega
      constructor
      · rw [hm, List.range_succ_eq_map]
        simp
      · rw [hm, List.range_succ]
        simp [hn2]
  · intro h
    unfold GenerateReversedArray
    rw [makeSlice_eq_none avail n (Or.inr h)]
    rfl

/-- C10 at `n = 4` with free memory for 10 elements. -/
theorem C10_GenerateReversedArray_witness :
    (0 : Int) ≤ 4 ∧ (4 : Int) ≤ (maxSliceLen : Int) ∧ (4 : Int) ≤ ((10 : Nat) : Int) ∧
    ∃ out, GenerateReversedArray 10 4 = some out ∧
      out = (List.range (4 : Int).toNat).map (fun i : Nat => (4 : Int) - (i : Int)) ∧
      (out.length : Int) = 4 ∧
      (∀ i : Nat, (i : Int) < 4 → out[i]? = some ((4 : Int) - (i : Int))) ∧
      ((0 : Int) < 4 → out.head? = some 4 ∧ out.getLast? = some 1) :=
  ⟨by decide, by unfold maxSliceLen; norm_num, by decide,
    (C10_GenerateReversedArray 10 4 (by decide)).1 (by unfold maxSliceLen; norm_num)
      (by decide)⟩

/-- C11: `MergeSort` is stable. In the loop of `merge`, when the two current heads are
equal the element of `left` is appended and `i` advances. Consequently, when the elements
carry their input position as a tag and are compared by value only, `MergeSort` returns
the sorted values with, for every value, its elements in the order of the input: two
elements of the same value keep their relative order. -/
theorem C11_MergeSort_stable (S : List Int) :
    (∀ (left right : List Int) (fuel i j : Nat) (result : List Int) (a : Int),
      left[i]? = some a → right[j]? = some a →
      mergeLoop left right (fuel + 1) i j result =
        mergeLoop left right fuel (i + 1) j (result ++ [a])) ∧
    (∀ (left right : List Tagged) (fuel i j : Nat) (result : List Tagged) (x y : Tagged),
      left[i]? = some x → right[j]? = some y → x.1 = y.1 →
      mergeLoopT left right (fuel + 1) i j result =
        mergeLoopT left right fuel (i + 1) j (result ++ [x])) ∧
    (∀ left right : List Tagged, (mergeT left right).map (List.map Prod.fst) =
      merge (left.map Prod.fst) (right.map Prod.fst)) ∧
    (∃ out, MergeSortT (tagPositions S) = some out ∧
      MergeSort S = some (out.map Prod.fst) ∧ List.Perm out (tagPositions S) ∧
      out.Pairwise (fun x y => x.1 = y.1 → x.2 < y.2) ∧
      ∀ v, withValue v out = withValue v (tagPositions S)) ∧
    MergeSortT (tagPositions [3, 1, 2, 1]) = some [(1, 1), (1, 3), (2, 2), (3, 0)] := by
  refine ⟨?_, ?_, mergeT_erase, ?_, by decide⟩
  · intro left right fuel i j result a ha hb
    have hi := getElem?_lt_length ha
    have hj := getElem?_lt_length hb
    simp only [mergeLoop, hi, hj, and_self, if_true, ha, hb, Int.le_refl]
  · intro left right fuel i j result x y hx hy hxy
    have hi : i < left.length := (List.getElem?_eq_some_iff.mp hx).1
    have hj : j < right.length := (List.getElem?_eq_some_iff.mp hy).1
    have hle : x.1 ≤ y.1 := by omega
    simp only [mergeLoopT, hi, hj, and_self, if_true, hx, hy, hle]
  · obtain ⟨out, h1, hp, hs, hv⟩ :=
      MergeSortFuelT_spec (tagPositions S).length (tagPositions S) (Nat.le_refl _)
    exact ⟨out, h1, MergeSortT_erase S out hp hs, hp, pairwise_of_withValue S out hv, hv⟩

/-- C12: `BubbleSort` has no early exit. For every input of length `n` it runs exactly `n`
outer passes, pass `i` making exactly `n - i - 1` comparisons, so that the total is
`n (n - 1) / 2` whatever the input; the sorted input `[1,2,3]` costs the same three
comparisons as the reversed input `[3,2,1]`. -/
theorem C12_BubbleSort_comparisons (S : List Int) :
    (∃ out passes, BubbleSortCount S = some (out, passes) ∧ BubbleSort S = some out ∧
      passes.length = S.length ∧
      (∀ i, i < S.length → passes[i]? = some (S.length - i - 1)) ∧
      passes.sum = S.length * (S.length - 1) / 2) ∧
    BubbleSortCount [1, 2, 3] = some ([1, 2, 3], [2, 1, 0]) ∧
    BubbleSortCount [3, 2, 1] = some ([1, 2, 3], [2, 1, 0]) := by
  refine ⟨?_, by decide, by decide⟩
  obtain ⟨out, hout, _, _⟩ := BubbleSort_spec S
  have hout2 : outerLoop S.length 0 S.length S = some out := hout
  refine ⟨out, (List.range S.length).map (fun i => S.length - i - 1), ?_, hout, ?_, ?_, ?_⟩
  · unfold BubbleSortCount
    simp only [outerLoopCount_eq, hout2, Option.map_some', Nat.zero_add]
  · simp
  · intro i hi
    simp [hi]
  · have := passCounts_sum S.length
    omega

/-- C13, as stated, fails: the list `[2 ^ 62]` holds a non-negative size, and
`runBenchmarks` with `MergeSort` (logging its calls) ends without a result, hence without
a call of the sort function and without a sample, because the allocation in
`GenerateRandomArray` fails. -/
theorem C13_too_large_size_fails :
    (∀ size ∈ ([4611686018427387904] : List Int), (0 : Int) ≤ size) ∧
    runBenchmarks 18446744073709551616 (fun _ => 7) (fun k => (k : Int))
      ⟨":8080".toList, [4611686018427387904], "merge".toList⟩ (logged MergeSort)
      ⟨0, 0, [], []⟩ [] = none := by
  refine ⟨by decide, ?_⟩
  simp only [runBenchmarks, runBenchmarksLoop, GenerateRandomArray]
  rw [makeSlice_eq_none _ _ (Or.inr (Or.inl (by unfold maxSliceLen; norm_num)))]
  rfl

/-- C13, amended: with the metrics sink as the lists of a `World`, for every algorithm
name, every list of sizes that can be allocated (each between `0` and `maxSliceLen` and
within the free memory) and every sort function that returns, `runBenchmarks` returns; the
state of the sort function afterwards is the one that one call for each entry of the list,
in the order of the list, on an array whose length is that entry, leaves; and exactly one
sample is recorded for each entry, labelled with the algorithm name and the decimal text
of the size, so that a size that appears twice gives two samples. For a sort function
that logs its calls, the log afterwards holds exactly these arrays. -/
theorem C13_runBenchmarks_samples {σ : Type} (avail : Nat) (src : RandSource)
    (clock : Nat → Int) (port name : Text) (sizes : List Int) (sortFunc : SortFunc σ)
    (hs : ∀ a st, ∃ out st2, sortFunc a st = some (out, st2))
    (hsize : ∀ size ∈ sizes,
      (0 : Int) ≤ size ∧ size ≤ (maxSliceLen : Int) ∧ size ≤ (avail : Int))
    (w : World) (st : σ) :
    (∃ w2 st2 arrs, runBenchmarks avail src clock ⟨port, sizes, name⟩ sortFunc w st =
        some (w2, st2) ∧
      arrs.length = sizes.length ∧
      arrs.map (fun a => (a.length : Int)) = sizes ∧
      callsInOrder sortFunc arrs st = some st2 ∧
      w2.sortDuration.length = w.sortDuration.length + sizes.length ∧
      w2.sortDuration.map (fun x => (x.algorithm, x.size)) =
        w.sortDuration.map (fun x => (x.algorithm, x.size)) ++
          sizes.map (fun size => (name, Nat.toDigits 10 size.toNat)) ∧
      w2.sortCompleted =
        w.sortCompleted ++ sizes.map (fun size => (name, Nat.toDigits 10 size.toNat))) ∧
    (∀ (f : List Int → Option (List Int)), (∀ a, ∃ out, f a = some out) →
      ∀ log : List (List Int), ∃ w2 arrs,
        runBenchmarks avail src clock ⟨port, sizes, name⟩ (logged f) w log =
          some (w2, log ++ arrs) ∧
        arrs.length = sizes.length ∧ arrs.map (fun a => (a.length : Int)) = sizes) := by
  constructor
  · obtain ⟨w2, st2, arrs, h1, h3, hcalls, h4, h5⟩ :=
      runBenchmarksLoop_spec avail src clock ⟨port, sizes, name⟩ sortFunc hs sizes w st hsize
    refine ⟨w2, st2, arrs, h1, ?_, h3, hcalls, ?_, h4, h5⟩
    · have := congrArg List.length h3
      simpa using this
    · have := congrArg List.length h4
      simpa using this
  · intro f hf log
    have hlf : ∀ a (l : List (List Int)), ∃ out l2, logged f a l = some (out, l2) := by
      intro a l
      obtain ⟨out, hout⟩ := hf a
      exact ⟨out, l ++ [a], by simp [logged, hout]⟩
    obtain ⟨w2, st2, arrs, h1, h3, hcalls, _, _⟩ :=
      runBenchmarksLoop_spec avail src clock ⟨port, sizes, name⟩ (logged f) hlf sizes w log
        hsize
    rw [callsInOrder_logged f hf arrs log] at hcalls
    injection hcalls with hcalls
    refine ⟨w2, arrs, ?_, ?_, h3⟩
    · rw [hcalls]
      exact h1
    · have := congrArg List.length h3
      simpa using this

/-- C13 for `MergeSort`, logging its calls, and the size `2` given twice, from an empty
sink and an empty log: two calls, on arrays of length 2, and two samples, both labelled
`("merge", "2")`. -/
theorem C13_runBenchmarks_samples_witness :
    (∀ a (st : List (List Int)), ∃ out st2, logged MergeSort a st = some (out, st2)) ∧
    (∀ size ∈ ([2, 2] : List Int),
      (0 : Int) ≤ size ∧ size ≤ (maxSliceLen : Int) ∧ size ≤ ((10 : Nat) : Int)) ∧
    ∃ w2 st2 arrs,
      runBenchmarks 10 (fun _ => 7) (fun k => (k : Int))
        ⟨":8080".toList, [2, 2], "merge".toList⟩ (logged MergeSort) ⟨0, 0, [], []⟩ [] =
          some (w2, st2) ∧
      arrs.length = ([2, 2] : List Int).length ∧
      arrs.map (fun a => (a.length : Int)) = [2, 2] ∧
      callsInOrder (logged MergeSort) arrs [] = some st2 ∧
      w2.sortDuration.length = ([] : List Sample).length + ([2, 2] : List Int).length ∧
      w2.sortDuration.map (fun x => (x.algorithm, x.size)) =
        ([] : List Sample).map (fun x => (x.algorithm, x.size)) ++
          ([2, 2] : List Int).map (fun size => ("merge".toList, Nat.toDigits 10 size.toNat)) ∧
      w2.sortCompleted =
        [] ++ ([2, 2] : List Int).map
          (fun size => ("merge".toList, Nat.toDigits 10 size.toNat)) :=
  ⟨fun a st => (MergeSort_spec a).elim fun out h =>
      ⟨out, st ++ [a], by simp [logged, h.1]⟩,
    by unfold maxSliceLen; decide,
    (C13_runBenchmarks_samples 10 (fun _ => 7) (fun k => (k : Int)) ":8080".toList
      "merge".toList [2, 2] (logged MergeSort)
      (fun a st => (MergeSort_spec a).elim fun out h =>
        ⟨out, st ++ [a], by simp [logged, h.1]⟩)
      (by unfold maxSliceLen; decide) ⟨0, 0, [], []⟩ []).1⟩

/-- C14: a negative size is not defaulted. For every `n < 0` the allocation
`make([]int, n)` fails, and with it each of `GenerateRandomArray`, `GenerateSortedArray`
and `GenerateReversedArray`: none of them returns a sequence. -/
theorem C14_negative_size_fails (avail : Nat) (src : RandSource) (k : Nat) (n : Int)
    (hn : n < 0) :
    makeSlice avail n = none ∧ GenerateRandomArray avail src k n = none ∧
    GenerateSortedArray avail n = none ∧ GenerateReversedArray avail n = none := by
  have h : ¬ (0 : Int) ≤ n := by omega
  simp [makeSlice, GenerateRandomArray, GenerateSortedArray, GenerateReversedArray, h]

/-- C14 at `n = -1`. -/
theorem C14_negative_size_fails_witness :
    (-1 : Int) < 0 ∧ makeSlice 10 (-1) = none ∧
    GenerateRandomArray 10 (fun _ => 7) 0 (-1) = none ∧
    GenerateSortedArray 10 (-1) = none ∧ GenerateReversedArray 10 (-1) = none :=
  ⟨by decide, C14_negative_size_fails 10 (fun _ => 7) 0 (-1) (by decide)⟩

/-- C15, as stated, fails: `parseSizes` keeps a negative number. For the text `-5` it
returns `[-5]`, and with `ARRAY_SIZES=-5` the sizes of `LoadConfigFromEnv` are `[-5]`. -/
theorem C15_negative_size_kept :
    parseSizes "-5".toList = [-5] ∧
    (LoadConfigFromEnv (fun key => if key = "ARRAY_SIZES" then "-5".toList else [])).Sizes =
      [-5] ∧
    ¬ (∀ v ∈ (LoadConfigFromEnv
        (fun key => if key = "ARRAY_SIZES" then "-5".toList else [])).Sizes, (0 : Int) ≤ v) := by
  decide

/-- C15, amended: the list returned by `parseSizes` is the list of the values that
`strconv.Atoi` gives for the trimmed comma-separated parts of the text, in their order,
the parts that are not numbers left out; every element is `≥ 0` when the text has no minus
sign. The sizes of `LoadConfigFromEnv` are that list for the text of `ARRAY_SIZES` when
it is not empty, and the default sizes `[100, 1000, 10000, 50000, 100000]` otherwise;
every one of them is `≥ 0` when the text of `ARRAY_SIZES` has no minus sign. -/
theorem C15_sizes_nonneg_without_minus (getenv : String → Text) (text : Text) :
    parseSizes text = (splitOn ',' text).filterMap (fun part => Atoi (TrimSpace part)) ∧
    (∀ v, v ∈ parseSizes text ↔
      ∃ part ∈ splitOn ',' text, Atoi (TrimSpace part) = some v) ∧
    ('-' ∉ text → ∀ v ∈ parseSizes text, (0 : Int) ≤ v) ∧
    ((LoadConfigFromEnv getenv).Sizes =
      if parseSizes (getenv "ARRAY_SIZES") = [] then [100, 1000, 10000, 50000, 100000]
      else parseSizes (getenv "ARRAY_SIZES")) ∧
    ('-' ∉ getenv "ARRAY_SIZES" →
      ∀ v ∈ (LoadConfigFromEnv getenv).Sizes, (0 : Int) ≤ v) := by
  refine ⟨parseSizes_eq text, mem_parseSizes text, parseSizes_nonneg text,
    LoadConfigFromEnv_Sizes getenv, ?_⟩
  intro hs v hv
  rw [LoadConfigFromEnv_Sizes] at hv
  split at hv
  · simp only [List.mem_cons, List.mem_singleton, List.not_mem_nil, or_false] at hv
    omega
  · exact parseSizes_nonneg _ hs v hv

/-- C16: for every sequence `S` of length `n ≥ 2`, `MergeSort S` is the merge of
`MergeSort` of the first `n / 2` elements and `MergeSort` of the remaining `n - n / 2`
elements, the left half being the smaller one on odd lengths; for `[5,2,8,1]` the two
intermediate merges are `[2,5]` and `[1,8]` and the result is `[1,2,5,8]`. -/
theorem C16_MergeSort_recursion (S : List Int) (h : 2 ≤ S.length) :
    (∃ left right out, MergeSort (S.take (S.length / 2)) = some left ∧
      MergeSort (S.drop (S.length / 2)) = some right ∧ merge left right = some out ∧
      MergeSort S = some out) ∧
    (S.take (S.length / 2)).length = S.length / 2 ∧
    (S.drop (S.length / 2)).length = (S.length + 1) / 2 ∧
    (S.length % 2 = 1 → (S.take (S.length / 2)).length < (S.drop (S.length / 2)).length) ∧
    (MergeSort [5, 2] = some [2, 5] ∧ MergeSort [8, 1] = some [1, 8] ∧
      merge [2, 5] [1, 8] = some [1, 2, 5, 8] ∧ MergeSort [5, 2, 8, 1] = some [1, 2, 5, 8]) := by
  obtain ⟨left, hl, _, _⟩ := MergeSort_spec (S.take (S.length / 2))
  obtain ⟨right, hr, _, _⟩ := MergeSort_spec (S.drop (S.length / 2))
  refine ⟨⟨left, right, List.merge left right leInt, hl, hr, merge_eq left right, ?_⟩,
    ?_, ?_, ?_, by decide, by decide, by decide, by decide⟩
  · rw [MergeSort_unfold S h, hl, hr]
    exact merge_eq left right
  · rw [List.length_take]
    omega
  · rw [List.length_drop]
    omega
  · intro hodd
    rw [List.length_take, List.length_drop]
    omega

/-- C16 at `S = [5,2,8,1]`. -/
theorem C16_MergeSort_recursion_witness :
    2 ≤ ([5, 2, 8, 1] : List Int).length ∧
    ∃ left right out,
      MergeSort (([5, 2, 8, 1] : List Int).take (([5, 2, 8, 1] : List Int).length / 2)) =
        some left ∧
      MergeSort (([5, 2, 8, 1] : List Int).drop (([5, 2, 8, 1] : List Int).length / 2)) =
        some right ∧
      merge left right = some out ∧ MergeSort [5, 2, 8, 1] = some out :=
  ⟨by decide, (C16_MergeSort_recursion [5, 2, 8, 1] (by decide)).1⟩

/-- C17: for every pair of non-decreasing sequences `left` and `right`, `merge left right`
returns a non-decreasing sequence of length `len(left) + len(right)` that is a
permutation of `left` followed by `right`; `merge [2,5] [1,8]` is `[1,2,5,8]`. -/
theorem C17_merge_sorted (left right : List Int)
    (hl : List.Sorted (fun a b : Int => a ≤ b) left)
    (hr : List.Sorted (fun a b : Int => a ≤ b) right) :
    (∃ out, merge left right = some out ∧ List.Sorted (fun a b : Int => a ≤ b) out ∧
      out.length = left.length + right.length ∧ List.Perm out (left ++ right)) ∧
    merge [2, 5] [1, 8] = some [1, 2, 5, 8] :=
  ⟨⟨List.merge left right leInt, merge_eq left right, sorted_listMerge left right hl hr,
    List.length_merge leInt left right, List.merge_perm_append leInt⟩, by decide⟩

/-- C17 at `left = [2,5]`, `right = [1,8]`. -/
theorem C17_merge_sorted_witness :
    List.Sorted (fun a b : Int => a ≤ b) [2, 5] ∧
    List.Sorted (fun a b : Int => a ≤ b) [1, 8] ∧
    ∃ out, merge [2, 5] [1, 8] = some out ∧ List.Sorted (fun a b : Int => a ≤ b) out ∧
      out.length = ([2, 5] : List Int).length + ([1, 8] : List Int).length ∧
      List.Perm out ([2, 5] ++ [1, 8]) :=
  ⟨by decide, by decide, (C17_merge_sorted [2, 5] [1, 8] (by decide) (by decide)).1⟩

/-- C18: the pass invariant of `BubbleSort`. For every input `S` of length `n` and every
`i < n`, after the outer passes `0..i` the working copy `r` is a permutation of `S`; every
element at a position `q ≥ n - i - 1` is at least every element before it, so the last
`i + 1` positions hold the `i + 1` largest elements in non-decreasing order; and these
positions, position `n - i - 1` among them, already hold the values of the final result.
For `[5,2,8,1]` the working copy after passes 0, 1, 2 is `[2,5,1,8]`, `[2,1,5,8]`,
`[1,2,5,8]`. -/
theorem C18_BubbleSort_pass_invariant (S : List Int) (i : Nat) (hi : i < S.length) :
    (∃ r out, outerLoop S.length 0 (i + 1) S = some r ∧ BubbleSort S = some out ∧
      List.Perm r S ∧
      (∀ p q a b, p < q → S.length - i - 1 ≤ q → r[p]? = some a → r[q]? = some b → a ≤ b) ∧
      List.Sorted (fun a b : Int => a ≤ b) (r.drop (S.length - i - 1)) ∧
      (r.drop (S.length - i - 1)).length = i + 1 ∧
      r.drop (S.length - i - 1) = out.drop (S.length - i - 1) ∧
      r[S.length - i - 1]? = out[S.length - i - 1]?) ∧
    (outerLoop 4 0 1 [5, 2, 8, 1] = some [2, 5, 1, 8] ∧
      outerLoop 4 0 2 [5, 2, 8, 1] = some [2, 1, 5, 8] ∧
      outerLoop 4 0 3 [5, 2, 8, 1] = some [1, 2, 5, 8]) := by
  refine ⟨?_, by decide, by decide, by decide⟩
  have h0 : SuffixOrdered (S.length - 0) S := by
    intro p q a b _ hq _ hqb
    have := getElem?_lt_length hqb
    omega
  obtain ⟨r, h1, hl, hp, hs⟩ := outerLoop_spec S.length (i + 1) 0 S (by omega) rfl h0
  have hs2 : SuffixOrdered (S.length - i - 1) r := by
    rwa [show S.length - 0 - (i + 1) = S.length - i - 1 by omega] at hs
  obtain ⟨out, hout, _, _⟩ := BubbleSort_spec S
  have hrest : outerLoop S.length (i + 1) (S.length - (i + 1)) r = some out := by
    have hb : BubbleSort S = outerLoop S.length 0 ((i + 1) + (S.length - (i + 1))) S := by
      unfold BubbleSort
      simp only
      rw [show i + 1 + (S.length - (i + 1)) = S.length by omega]
    rw [hb, outerLoop_add, h1, Option.some_bind, Nat.zero_add] at hout
    exact hout
  have hframe : ∀ p, S.length - i - 1 ≤ p → out[p]? = r[p]? := by
    intro p hpq
    exact outerLoop_frame S.length _ (i + 1) r out hrest p (by omega)
  have hdrop : r.drop (S.length - i - 1) = out.drop (S.length - i - 1) := by
    apply List.ext_getElem?
    intro p
    rw [List.getElem?_drop, List.getElem?_drop, hframe _ (by omega)]
  refine ⟨r, out, h1, hout, hp, hs2, ?_, ?_, hdrop, (hframe _ (Nat.le_refl _)).symm⟩
  · unfold List.Sorted
    rw [List.pairwise_iff_getElem]
    intro p q hpl hql hpq
    refine hs2 (S.length - i - 1 + p) (S.length - i - 1 + q) _ _ (by omega) (by omega) ?_ ?_
    · rw [← List.getElem?_drop, List.getElem?_eq_getElem hpl]
    · rw [← List.getElem?_drop, List.getElem?_eq_getElem hql]
  · rw [List.length_drop, hl]
    omega

/-- C18 at `S = [5,2,8,1]`, `i = 1`. -/
theorem C18_BubbleSort_pass_invariant_witness :
    1 < ([5, 2, 8, 1] : List Int).length ∧
    ∃ r out, outerLoop ([5, 2, 8, 1] : List Int).length 0 (1 + 1) [5, 2, 8, 1] = some r ∧
      BubbleSort [5, 2, 8, 1] = some out ∧ List.Perm r [5, 2, 8, 1] ∧
      (∀ p q a b, p < q → ([5, 2, 8, 1] : List Int).length - 1 - 1 ≤ q →
        r[p]? = some a → r[q]? = some b → a ≤ b) ∧
      List.Sorted (fun a b : Int => a ≤ b)
        (r.drop (([5, 2, 8, 1] : List Int).length - 1 - 1)) ∧
      (r.drop (([5, 2, 8, 1] : List Int).length - 1 - 1)).length = 1 + 1 ∧
      r.drop (([5, 2, 8, 1] : List Int).length - 1 - 1) =
        out.drop (([5, 2, 8, 1] : List Int).length - 1 - 1) ∧
      r[([5, 2, 8, 1] : List Int).length - 1 - 1]? =
        out[([5, 2, 8, 1] : List Int).length - 1 - 1]? :=
  ⟨by decide, (C18_BubbleSort_pass_invariant [5, 2, 8, 1] 1 (by decide)).1⟩

/-- C19: both sorts are total: on every integer sequence, the empty one included, they
return a sequence. For length `n ≥ 2` the two recursive calls of `MergeSort` are on
sequences of lengths `n / 2` and `n - n / 2`, both between `1` and `n - 1`. Every step
`j < n - i - 1` of pass `i < n` of `BubbleSort` reads and writes `j` and `j + 1` inside the
working copy (the step fails exactly when `j + 1` is out of range), and `merge` reads
`left[i]`, `right[j]` and takes `left[i:]`, `right[j:]` in range. -/
theorem C19_sorts_total (S left right : List Int) :
    (∃ out, BubbleSort S = some out) ∧ (∃ out, MergeSort S = some out) ∧
    (∃ out, merge left right = some out) ∧
    (2 ≤ S.length →
      (S.take (S.length / 2)).length = S.length / 2 ∧
      (S.drop (S.length / 2)).length = S.length - S.length / 2 ∧
      1 ≤ S.length / 2 ∧ S.length / 2 ≤ S.length - 1 ∧
      1 ≤ S.length - S.length / 2 ∧ S.length - S.length / 2 ≤ S.length - 1) ∧
    (∀ (r : List Int) (j : Nat), swapStep r j = none ↔ r.length ≤ j + 1) ∧
    (∀ (i j : Nat) (r : List Int), i < S.length → j < S.length - i - 1 →
      r.length = S.length →
      j + 1 < r.length ∧ ∃ r2, swapStep r j = some r2 ∧ r2.length = S.length) ∧
    (∀ i j : Nat, i < left.length ∧ j < right.length →
      ∃ a b, left[i]? = some a ∧ right[j]? = some b) ∧
    (∃ i2 j2 result,
      mergeLoop left right (left.length + right.length) 0 0 [] = some (i2, j2, result) ∧
      i2 ≤ left.length ∧ j2 ≤ right.length ∧
      sliceFrom left i2 = some (left.drop i2) ∧ sliceFrom right j2 = some (right.drop j2)) := by
  obtain ⟨b, hb, _⟩ := BubbleSort_spec S
  obtain ⟨m, hm, _⟩ := MergeSort_spec S
  refine ⟨⟨b, hb⟩, ⟨m, hm⟩, ⟨_, merge_eq left right⟩, ?_, swapStep_eq_none_iff, ?_, ?_, ?_⟩
  · intro h
    rw [List.length_take, List.length_drop]
    omega
  · intro i j r hi hj hr
    obtain ⟨r2, h2, hl2, _⟩ := swapStep_spec r j (by omega)
    exact ⟨by omega, r2, h2, by omega⟩
  · intro i j hij
    exact ⟨left[i], right[j], List.getElem?_eq_getElem hij.1, List.getElem?_eq_getElem hij.2⟩
  · obtain ⟨i2, j2, r2, h1, h2, h3, _⟩ :=
      mergeLoop_spec left right (left.length + right.length) 0 0 [] (by omega)
    have hi : i2 ≤ left.length := by simpa using h2
    have hj : j2 ≤ right.length := by simpa using h3
    exact ⟨i2, j2, r2, h1, hi, hj, by simp [sliceFrom, hi], by simp [sliceFrom, hj]⟩

/-- C20: the two algorithms are interchangeable on values: on every integer sequence
both return, and they return the same sequence. -/
theorem C20_BubbleSort_eq_MergeSort (S : List Int) :
    (∃ out, BubbleSort S = some out ∧ MergeSort S = some out) ∧
    BubbleSort S = MergeSort S := by
  obtain ⟨b, hb, hbp, hbs⟩ := BubbleSort_spec S
  obtain ⟨m, hm, hmp, hms⟩ := MergeSort_spec S
  have hbm : b = m := eq_of_sorted_perm b m (hbp.trans hmp.symm) hbs hms
  subst hbm
  exact ⟨⟨b, hb, hm⟩, by rw [hb, hm]⟩

end DohertyThreshold
